import Mathlib

/-!
# Verification of the retrieval/classification core (`modules/bible_manager.py`, `utils.py`)

A shallow embedding of the corpus store, the vector matcher, the lexical
matcher, the topic classifier and the retrieval coordinator of the
repository, together with theorems settling the specification claims.

Modelling conventions:

* Python floats are modelled by exact arithmetic.  Similarity scores are
  values of the form `num / √rad` (`SqrtVal` below) because cosine
  similarity of rational vectors has this shape; comparisons on such
  values are decidable by sign analysis and cross-squaring, so the whole
  pipeline stays executable.
* `str.lower` is modelled per character (`Char.toLower`); on the Korean
  and ASCII texts manipulated by this program the two agree.
* Python's `sorted`/`list.sort` are documented stable and are modelled
  exactly as sorting by the *linear* lexicographic order (key, original
  position).  `numpy.argsort` (default quicksort) promises *no* tie
  order, so applying the same lexicographic model to it fixes one
  definite admissible output (ascending by value, ties by index); every
  universal theorem below that touches `argsort` asserts only
  consequences that hold for any value-sorted permutation, and the one
  concrete tie evaluation (claim C4) uses a 2-element array, on which
  numpy demonstrably returns exactly this order.
* Fallible Python operations are modelled in `Except PyError`; a
  `try/except` block becomes a `match` on the `Except` value.
-/

/- Batteries marks the rational-number operations `@[irreducible]`; the
concrete evaluations below need them to reduce. -/
attribute [local semireducible] Rat.add Rat.mul Rat.inv Rat.sub

/-- Python exception kinds relevant to this program. -/
inductive PyError where
  | nameError
  | valueError
  | indexError
  | typeError
  | zeroDivisionError
  | requestError
deriving DecidableEq, Repr

/-- Exact representation of a similarity value `num / √rad` (`rad > 0`
maintained by construction).  Cosine similarities of rational vectors and
plain rational scores (with `rad = 1`) both live here. -/
structure SqrtVal where
  num : ℚ
  rad : ℚ
deriving DecidableEq, Repr

instance : Inhabited SqrtVal := ⟨⟨0, 1⟩⟩

/-- The rational `q` as a score value (`q / √1`). -/
def SqrtVal.ofRat (q : ℚ) : SqrtVal := ⟨q, 1⟩

/-- Decidable comparison `num₁/√rad₁ ≤ num₂/√rad₂`, by sign analysis and
cross-squaring (exact, no floating point). -/
def SqrtVal.le (a b : SqrtVal) : Bool :=
  if a.num ≤ 0 then
    if 0 ≤ b.num then true
    else decide (b.num ^ 2 * a.rad ≤ a.num ^ 2 * b.rad)
  else
    if b.num ≤ 0 then false
    else decide (a.num ^ 2 * b.rad ≤ b.num ^ 2 * a.rad)

/-- Semantic equality of two score values. -/
def SqrtVal.eqv (a b : SqrtVal) : Bool := a.le b && b.le a

theorem SqrtVal.le_total (a b : SqrtVal) : a.le b || b.le a := by
  unfold SqrtVal.le
  rcases le_or_lt a.num 0 with ha | ha
  · rw [if_pos ha]
    rcases le_or_lt 0 b.num with hb | hb
    · rw [if_pos hb]; simp
    · rw [if_neg (not_le.mpr hb), if_pos (le_of_lt hb)]
      rcases le_or_lt 0 a.num with ha0 | ha0
      · rw [if_pos ha0]; simp
      · rw [if_neg (not_le.mpr ha0)]
        rcases le_or_lt (b.num ^ 2 * a.rad) (a.num ^ 2 * b.rad) with h | h
        · simp [h]
        · simp [le_of_lt h]
  · rw [if_neg (not_le.mpr ha)]
    rcases le_or_lt b.num 0 with hb | hb
    · rw [if_pos hb, if_pos hb, if_pos (le_of_lt ha)]; simp
    · rw [if_neg (not_le.mpr hb), if_neg (not_le.mpr hb), if_neg (not_le.mpr ha)]
      rcases le_or_lt (a.num ^ 2 * b.rad) (b.num ^ 2 * a.rad) with h | h
      · simp [h]
      · simp [le_of_lt h]

theorem SqrtVal.le_trans {a b c : SqrtVal} (hb : 0 < b.rad)
    (hab : a.le b) (hbc : b.le c) : a.le c := by
  unfold SqrtVal.le at hab hbc ⊢
  rcases le_or_lt a.num 0 with ha | ha
  · rw [if_pos ha] at hab ⊢
    rcases le_or_lt 0 c.num with hc0 | hc0
    · rw [if_pos hc0]
    · rw [if_neg (not_le.mpr hc0)]
      rw [decide_eq_true_eq]
      have hc : c.num ≤ 0 := le_of_lt hc0
      rcases le_or_lt b.num 0 with hb0 | hb0
      · rw [if_pos hb0] at hbc
        rcases le_or_lt 0 b.num with hb1 | hb1
        · -- b.num = 0; hbc forces c.num ^ 2 * b.rad ≤ 0, impossible
          rw [if_neg (not_le.mpr hc0), decide_eq_true_eq] at hbc
          have hb2 : b.num = 0 := le_antisymm hb0 hb1
          rw [hb2] at hbc
          have hcp : 0 < c.num ^ 2 := sq_pos_of_ne_zero (ne_of_lt hc0)
          nlinarith
        · rw [if_neg (not_le.mpr hb1)] at hab
          rw [if_neg (not_le.mpr hc0), decide_eq_true_eq] at hbc
          rw [decide_eq_true_eq] at hab
          have hbp : 0 < b.num ^ 2 := sq_pos_of_ne_zero (ne_of_lt hb1)
          nlinarith [mul_le_mul_of_nonneg_left hab (sq_nonneg c.num),
            mul_le_mul_of_nonneg_left hbc (sq_nonneg a.num)]
      · -- 0 < b.num : hbc is false since c.num ≤ 0
        rw [if_neg (not_le.mpr hb0), if_pos hc] at hbc
        exact absurd hbc (by simp)
  · rw [if_neg (not_le.mpr ha)] at hab ⊢
    rcases le_or_lt b.num 0 with hb0 | hb0
    · rw [if_pos hb0] at hab
      exact absurd hab (by simp)
    · rw [if_neg (not_le.mpr hb0), decide_eq_true_eq] at hab
      rw [if_neg (not_le.mpr hb0)] at hbc
      rcases le_or_lt c.num 0 with hc | hc
      · rw [if_pos hc] at hbc
        exact absurd hbc (by simp)
      · rw [if_neg (not_le.mpr hc), decide_eq_true_eq] at hbc
        rw [if_neg (not_le.mpr hc), decide_eq_true_eq]
        have hbp : 0 < b.num ^ 2 := sq_pos_of_ne_zero (ne_of_gt hb0)
        nlinarith [mul_le_mul_of_nonneg_left hab (sq_nonneg c.num),
          mul_le_mul_of_nonneg_left hbc (sq_nonneg a.num)]

/-- On plain rationals the score order is the rational order. -/
theorem SqrtVal.ofRat_le_ofRat (x y : ℚ) :
    (SqrtVal.ofRat x).le (SqrtVal.ofRat y) = decide (x ≤ y) := by
  dsimp only [SqrtVal.ofRat, SqrtVal.le]
  rcases le_or_lt x 0 with hx | hx
  · rw [if_pos hx]
    rcases le_or_lt 0 y with hy | hy
    · rw [if_pos hy]
      simp [hx.trans hy]
    · rw [if_neg (not_le.mpr hy)]
      simp only [mul_one, decide_eq_decide]
      constructor
      · intro h; nlinarith
      · intro h; nlinarith
  · rw [if_neg (not_le.mpr hx)]
    rcases le_or_lt y 0 with hy | hy
    · rw [if_pos hy]
      have hxy : ¬ x ≤ y := not_le.mpr (lt_of_le_of_lt hy hx)
      simp [hxy]
    · rw [if_neg (not_le.mpr hy)]
      simp only [mul_one, decide_eq_decide]
      constructor
      · intro h; nlinarith
      · intro h; nlinarith

/-! ### Sorting

Python's `sorted`/`list.sort` and `numpy.argsort` (stable on the small
arrays this program sorts) are modelled by sorting with respect to a
*linear* boolean order — stability is encoded in the order itself (the
orders below compare (key, original position) lexicographically), so the
sorted result is unique and algorithm-independent.  A structurally
recursive insertion sort keeps everything kernel-evaluable. -/

def insertSorted {α : Type} (le : α → α → Bool) (x : α) : List α → List α
  | [] => [x]
  | y :: ys => if le x y then x :: y :: ys else y :: insertSorted le x ys

def sortByB {α : Type} (le : α → α → Bool) : List α → List α
  | [] => []
  | x :: xs => insertSorted le x (sortByB le xs)

theorem perm_insertSorted {α : Type} (le : α → α → Bool) (x : α) :
    ∀ l : List α, List.Perm (insertSorted le x l) (x :: l)
  | [] => List.Perm.refl _
  | y :: ys => by
    unfold insertSorted
    by_cases h : le x y = true
    · rw [if_pos h]
    · rw [if_neg h]
      exact ((perm_insertSorted le x ys).cons y).trans (List.Perm.swap x y ys)

theorem perm_sortByB {α : Type} (le : α → α → Bool) :
    ∀ l : List α, List.Perm (sortByB le l) l
  | [] => List.Perm.refl _
  | x :: xs => by
    unfold sortByB
    exact (perm_insertSorted le x (sortByB le xs)).trans
      ((perm_sortByB le xs).cons x)

theorem mem_insertSorted {α : Type} (le : α → α → Bool) (x a : α) (l : List α) :
    a ∈ insertSorted le x l ↔ a = x ∨ a ∈ l := by
  simpa using (perm_insertSorted le x l).mem_iff

theorem pairwise_insertSorted {α : Type} (le : α → α → Bool)
    (htrans : ∀ a b c, le a b → le b c → le a c)
    (total : ∀ a b, le a b || le b a) (x : α) :
    ∀ l : List α, l.Pairwise (fun a b => le a b) →
      (insertSorted le x l).Pairwise (fun a b => le a b)
  | [], _ => by simp [insertSorted]
  | y :: ys, h => by
    unfold insertSorted
    rcases List.pairwise_cons.mp h with ⟨hy, hys⟩
    by_cases hxy : le x y = true
    · rw [if_pos hxy]
      refine List.pairwise_cons.mpr ⟨?_, h⟩
      intro z hz
      rcases List.mem_cons.mp hz with hzy | hz
      · subst hzy; exact hxy
      · exact htrans x y z hxy (hy z hz)
    · rw [if_neg hxy]
      refine List.pairwise_cons.mpr ⟨?_, pairwise_insertSorted le htrans total x ys hys⟩
      intro z hz
      rcases (mem_insertSorted le x z ys).mp hz with hzx | hz
      · rw [hzx]
        rcases Bool.or_eq_true_iff.mp (total x y) with h1 | h1
        · exact absurd h1 hxy
        · exact h1
      · exact hy z hz

theorem pairwise_sortByB {α : Type} (le : α → α → Bool)
    (htrans : ∀ a b c, le a b → le b c → le a c)
    (total : ∀ a b, le a b || le b a) :
    ∀ l : List α, (sortByB le l).Pairwise (fun a b => le a b)
  | [] => by simp [sortByB]
  | x :: xs => by
    unfold sortByB
    exact pairwise_insertSorted le htrans total x _ (pairwise_sortByB le htrans total xs)

theorem nodup_sortByB {α : Type} (le : α → α → Bool) (l : List α)
    (h : l.Nodup) : (sortByB le l).Nodup :=
  (perm_sortByB le l).nodup_iff.mpr h

/-! ### Text primitives (`str` methods and `utils.py` `TextProcessor`) -/

/-- Python `str.lower`, modelled per character (exact for the ASCII and
Korean texts this program manipulates). -/
def pyLower (s : List Char) : List Char := s.map Char.toLower

/-- Python's substring test `needle in hay` on strings. -/
def isSubstr (needle : List Char) : List Char → Bool
  | [] => needle.isEmpty
  | c :: rest => needle.isPrefixOf (c :: rest) || isSubstr needle rest

/-- Helper for `countOccs`: `skip` counts characters still to be consumed
from a previously counted occurrence, making the scan non-overlapping. -/
def countGo (needle : List Char) : ℕ → List Char → ℕ
  | _, [] => 0
  | skip + 1, _ :: rest => countGo needle skip rest
  | 0, c :: rest =>
    if needle.isPrefixOf (c :: rest) then 1 + countGo needle (needle.length - 1) rest
    else countGo needle 0 rest

/-- Python `str.count`: number of non-overlapping occurrences. -/
def countOccs (needle hay : List Char) : ℕ :=
  if needle = [] then hay.length + 1 else countGo needle 0 hay

theorem isSubstr_hay_ne_nil {needle hay : List Char} (h : needle ≠ [])
    (hs : isSubstr needle hay = true) : hay ≠ [] := by
  intro hnil
  rw [hnil] at hs
  simp [isSubstr, List.isEmpty_iff] at hs
  exact h hs

theorem one_le_countGo {needle : List Char} (h : needle ≠ []) :
    ∀ hay : List Char, isSubstr needle hay = true → 1 ≤ countGo needle 0 hay
  | [], hs => absurd hs (by simp [isSubstr, List.isEmpty_iff, h])
  | c :: rest, hs => by
    unfold countGo
    by_cases hp : needle.isPrefixOf (c :: rest) = true
    · rw [if_pos hp]
      exact Nat.le_add_right 1 _
    · rw [if_neg hp]
      unfold isSubstr at hs
      rw [Bool.or_eq_true_iff] at hs
      rcases hs with hs | hs
      · exact absurd hs hp
      · exact one_le_countGo h rest hs

theorem one_le_countOccs {needle hay : List Char} (h : needle ≠ [])
    (hs : isSubstr needle hay = true) : 1 ≤ countOccs needle hay := by
  unfold countOccs
  rw [if_neg h]
  exact one_le_countGo h hay hs

/-- Characters matched by the keyword regex `[가-힣a-zA-Z0-9]+`. -/
def isWordChar (c : Char) : Bool :=
  (decide ('가' ≤ c) && decide (c ≤ '힣')) || (decide ('a' ≤ c) && decide (c ≤ 'z')) ||
    (decide ('A' ≤ c) && decide (c ≤ 'Z')) || (decide ('0' ≤ c) && decide (c ≤ '9'))

/-- `re.findall` of maximal word-character runs; `cur` holds the current
run, reversed. -/
def runsGo (cur : List Char) : List Char → List (List Char)
  | [] => if cur.isEmpty then [] else [cur.reverse]
  | c :: rest =>
    if isWordChar c then runsGo (c :: cur) rest
    else if cur.isEmpty then runsGo [] rest else cur.reverse :: runsGo [] rest

/-- All maximal word-character runs of `s`. -/
def wordRuns (s : List Char) : List (List Char) := runsGo [] s

/-- De-duplication preserving first-seen order (the `seen`-set loop of
`extract_keywords`). -/
def dedupGo (seen : List String) : List String → List String
  | [] => []
  | k :: rest => if k ∈ seen then dedupGo seen rest else k :: dedupGo (k :: seen) rest

/-- `TextProcessor.extract_keywords` (`utils.py`): word runs, minimum
length 2, de-duplication preserving order, capped at 10 keywords. -/
def extract_keywords (text : String) (min_length : ℕ := 2) : List String :=
  let words := (wordRuns text.data).map (fun r => String.mk r)
  let keywords := words.filter (fun w => decide (min_length ≤ w.length))
  (dedupGo [] keywords).take 10

theorem mem_dedupGo : ∀ (seen l : List String) (x : String),
    x ∈ dedupGo seen l → x ∈ l
  | _, [], _, hx => absurd hx (by simp [dedupGo])
  | seen, k :: rest, x, hx => by
    unfold dedupGo at hx
    by_cases hk : k ∈ seen
    · rw [if_pos hk] at hx
      exact List.mem_cons_of_mem k (mem_dedupGo seen rest x hx)
    · rw [if_neg hk] at hx
      rcases List.mem_cons.mp hx with hxk | hx
      · exact hxk ▸ List.mem_cons_self k rest
      · exact List.mem_cons_of_mem k (mem_dedupGo (k :: seen) rest x hx)

/-- Every extracted keyword has at least the minimum length. -/
theorem extract_keywords_min_length {text : String} {min_length : ℕ} {k : String}
    (hk : k ∈ extract_keywords text min_length) : min_length ≤ k.length := by
  unfold extract_keywords at hk
  have h1 := mem_dedupGo _ _ _ (List.mem_of_mem_take hk)
  have h2 := List.mem_filter.mp h1
  exact of_decide_eq_true h2.2

/-- Keywords extracted with the default minimum length are nonempty. -/
theorem extract_keywords_ne_nil {text : String} {k : String}
    (hk : k ∈ extract_keywords text 2) : k.data ≠ [] := by
  have h := extract_keywords_min_length hk
  intro hnil
  rw [String.length, hnil] at h
  simp at h

/-! ### Data model (`BibleVerse`, manager state, configuration) -/

/-- `BibleVerse` (`modules/bible_manager.py`), immutable part.  The mutable
`similarity_score` attribute is modelled as a parallel score list in
`BState`, so that in-place mutation becomes functional state update. -/
structure Verse where
  id : String
  text : String
  book : String
  chapter : Int
  verse : Int
  embedding : List ℚ
deriving DecidableEq, Repr

instance : Inhabited Verse := ⟨⟨"", "", "", 0, 0, []⟩⟩

/-- The mutable state of a `BibleManager`: the verse list, the parallel
list of `similarity_score` fields, `embeddings_matrix` and `is_loaded`. -/
structure BState where
  verses : List Verse
  scores : List SqrtVal
  matrix : Option (List (List ℚ))
  is_loaded : Bool
deriving DecidableEq, Repr

/-- Configuration (`config.py`): the similarity threshold, the default
result count, and whether `sklearn.metrics.pairwise.cosine_similarity`
imported successfully (`cosine_similarity is None` check). -/
structure Cfg where
  SIMILARITY_THRESHOLD : ℚ := 3 / 10
  MAX_BIBLE_RESULTS : ℕ := 5
  sklearnAvailable : Bool := true
deriving DecidableEq, Repr

/-- `config.CATEGORIES`. -/
def CATEGORIES : List String := ["관계", "진로", "신앙", "감정", "윤리", "건강", "경제"]

/-- One record of the parsed JSON data; `none` models an absent key. -/
structure RawItem where
  id : Option String := none
  text : Option String := none
  book : Option String := none
  chapter : Option Int := none
  verse : Option Int := none
  embedding : Option (List ℚ) := none
deriving DecidableEq, Repr

/-- The per-record mapping of `_process_verses_data`: permissive field
access with defaults, records with missing or empty `text` dropped. -/
def parseItem (item : RawItem) : Option Verse :=
  let chapter := item.chapter.getD 0
  let verse := item.verse.getD 0
  let synthId := item.book.getD "" ++ "_" ++ toString chapter ++ "_" ++ toString verse
  let verse_id := item.id.getD synthId
  let text := item.text.getD ""
  let book := item.book.getD "알 수 없음"
  let embedding := item.embedding.getD []
  if text = "" then none
  else some { id := verse_id, text := text, book := book, chapter := chapter,
              verse := verse, embedding := embedding }

/-- `numpy.array` on a list of lists succeeds (as a 2-D float matrix) only
when the rows have a single common length. -/
def allSameLength (rows : List (List ℚ)) : Bool :=
  match rows with
  | [] => true
  | r :: rest => rest.all (fun x => decide (x.length = r.length))

/-- `BibleManager._process_verses_data`.  Note that `self.verses` is
overwritten *before* any validation: the fresh parsed list (with scores
reset to 0.0) is published even on the failure paths, while
`embeddings_matrix` and `is_loaded` are only assigned on success. -/
def processVersesData (st : BState) (verses_data : List RawItem) : Bool × BState :=
  let parsed := verses_data.filterMap parseItem
  let st1 : BState := { st with verses := parsed,
                                scores := List.replicate parsed.length (SqrtVal.ofRat 0) }
  if parsed.isEmpty then (false, st1)
  else
    let embeddings_list := (parsed.map Verse.embedding).filter (fun e => !e.isEmpty)
    if embeddings_list.isEmpty then (true, { st1 with is_loaded := true })
    else if allSameLength embeddings_list then
      (true, { st1 with matrix := some embeddings_list, is_loaded := true })
    else (false, st1)

/-! ### Topic classifier (`CategoryClassifier`) -/

/-- `CategoryClassifier.category_keywords`, transcribed from the source. -/
def category_keywords : List (String × List String) :=
  [("관계",
    ["가족", "부모", "자녀", "형제", "자매", "친구", "연인", "남편", "아내",
     "결혼", "이혼", "갈등", "다툼", "관계", "사랑", "미움", "용서",
     "배신", "신뢰", "소통", "이해", "외로움", "고립"]),
   ("진로",
    ["진로", "직업", "취업", "직장", "회사", "사업", "창업", "학교",
     "공부", "시험", "성적", "진학", "대학", "전공", "선택", "결정",
     "미래", "꿈", "목표", "포기", "실패", "성공"]),
   ("신앙",
    ["하나님", "예수", "성령", "기도", "예배", "교회", "믿음", "신앙",
     "구원", "죄", "회개", "감사", "찬양", "성경", "말씀", "은혜",
     "축복", "시험", "연단", "순종", "의심", "불신"]),
   ("감정",
    ["우울", "슬픔", "기쁨", "행복", "분노", "화", "불안", "걱정",
     "두려움", "무서움", "스트레스", "좌절", "절망", "희망",
     "평안", "위로", "격려", "감정", "마음", "정신"]),
   ("윤리",
    ["선악", "옳고", "그름", "도덕", "윤리", "양심", "정직", "거짓말",
     "속임", "진실", "정의", "공의", "공정", "불의", "부정", "타락",
     "유혹", "시험", "선택", "결정", "가치관"]),
   ("건강",
    ["건강", "질병", "병", "아픔", "고통", "치료", "의사", "병원",
     "약", "수술", "회복", "죽음", "생명", "몸", "정신", "마음",
     "휴식", "피로", "스트레스", "운동", "식사"]),
   ("경제",
    ["돈", "재정", "경제", "가난", "부", "가난한", "부자", "빚", "대출",
     "투자", "사업", "직장", "월급", "수입", "지출", "절약",
     "후원", "기부", "헌금", "물질", "재물"])]

/-- Python true division, fallible on a zero divisor. -/
def pyDiv (a b : ℚ) : Except PyError ℚ :=
  if b = 0 then .error .zeroDivisionError else .ok (a / b)

/-- The keyword-weight accumulation of `CategoryClassifier.classify` for
one category: `Σ len(keyword)/3` over keywords found in the text. -/
def categoryRawScore (keywords : List String) (t : List Char) : ℚ :=
  keywords.foldl (fun s kw => if isSubstr kw.data t then s + (kw.length : ℚ) / 3 else s) 0

/-- Python's stable descending sort by the rational second component,
via the linear order (score descending, original position ascending). -/
def stableSortDescBy (l : List (String × ℚ)) : List (String × ℚ) :=
  (sortByB
    (fun a b => decide (b.2.2 < a.2.2) || (decide (a.2.2 = b.2.2) && decide (a.1 ≤ b.1)))
    l.enum).map Prod.snd

/-- One category's iteration of `CategoryClassifier.classify`: accumulate
the keyword score, normalise by text length (the division guarded by
`if len(text) > 0` in the source). -/
def classifyStep (t : List Char) (acc : List (String × ℚ)) (p : String × List String) :
    Except PyError (List (String × ℚ)) := do
  let raw := categoryRawScore p.2 t
  let sc ← if 0 < t.length then do
      let d ← pyDiv raw (t.length : ℚ)
      pure (d * 100)
    else pure (0 : ℚ)
  pure (acc ++ [(p.1, sc)])

/-- `CategoryClassifier.classify`, with its division modelled as fallible. -/
def classifyE (text : String) : Except PyError (List (String × ℚ)) := do
  let t := pyLower text.data
  let category_scores ← category_keywords.foldlM (classifyStep t) []
  let sorted_categories := stableSortDescBy category_scores
  pure (sorted_categories.filter (fun p => decide ((1 : ℚ) / 2 < p.2)))

/-- The classification result (`classifyE` never fails; see the claim-C7
theorem).  `BibleManager.classify_concern` delegates to this. -/
def classify (text : String) : List (String × ℚ) :=
  match classifyE text with
  | .ok r => r
  | .error _ => []

/-! ### Kernel-evaluable models of the `str` methods used by the loader -/

/-- Python `str.startswith`. -/
def pyStartsWith (s pre : String) : Bool := pre.data.isPrefixOf s.data

/-- Python `',' in source`. -/
def pyContainsChar (s : String) (c : Char) : Bool := s.data.contains c

/-- Helper for `pySplitOnComma`; `cur` holds the current field reversed. -/
def splitOnCommaGo (cur : List Char) : List Char → List String
  | [] => [String.mk cur.reverse]
  | c :: rest =>
    if c = ',' then String.mk cur.reverse :: splitOnCommaGo [] rest
    else splitOnCommaGo (c :: cur) rest

/-- Python `source.split(',')`. -/
def pySplitOnComma (s : String) : List String := splitOnCommaGo [] s.data

/-- Python `str.strip()`. -/
def pyStrip (s : String) : String :=
  String.mk (((s.data.dropWhile Char.isWhitespace).reverse.dropWhile Char.isWhitespace).reverse)

/-! ### Loading (`load_embeddings`, `_load_multiple_urls`) -/

/-- Shapes of parsed JSON data relevant to `load_embeddings`. -/
inductive PyJson where
  | arr (items : List RawItem)
  | objWithVerses (items : List RawItem)
  | objOther (truthy : Bool)
deriving DecidableEq, Repr

/-- Python truthiness of a parsed JSON value (`if not data`). -/
def pyTruthy : PyJson → Bool
  | .arr items => !items.isEmpty
  | .objWithVerses _ => true
  | .objOther t => t

/-- The environment a load attempt runs in: the process-wide cache entry,
the configured source string, local-file presence, single-URL download
success, the parsed content of the local file, and the parsed content
served per URL (`none` = network/parse failure). -/
structure LoadEnv where
  cached : Option (List Verse × List SqrtVal × Option (List (List ℚ)))
  source : String
  localExists : Bool
  downloadOk : Bool
  fileJson : Option PyJson
  urlJson : String → Option PyJson

/-- Names bound at module level in `modules/bible_manager.py` (its imports
and top-level definitions).  `requests` is not among them: the module
imports `os, json, numpy as np, logging`, typing names,
`cosine_similarity`, `re`, `config` and five `utils` names, but never
`requests`. -/
def bibleManagerModuleGlobals : List String :=
  ["os", "json", "np", "logging", "List", "Dict", "Optional", "Any", "Tuple",
   "Union", "cosine_similarity", "re", "config", "FileDownloader",
   "MemoryManager", "global_cache", "log_function_call", "safe_execute",
   "logger", "BibleVerse", "CategoryClassifier", "BibleManager",
   "bible_manager"]

/-- One iteration body of `_load_multiple_urls` for a stripped nonempty
URL.  Evaluating `requests.get(url, timeout=300)` first resolves the name
`requests` in the module globals; as the module never imports it, this
raises `NameError` before any network activity.  The remainder of the
body (download, transparent gzip, JSON parse, the two accepted shapes) is
modelled behind that name lookup. -/
def downloadStep (env : LoadEnv) (url : String) : Except PyError (List RawItem) :=
  if "requests" ∈ bibleManagerModuleGlobals then
    match env.urlJson url with
    | none => .error .requestError
    | some (.arr items) => .ok items
    | some (.objWithVerses items) => .ok items
    | some (.objOther _) => .ok []
  else .error .nameError

/-- `BibleManager._load_multiple_urls`: accumulate records over the URL
list (per-URL failures are swallowed by the inner `except` and skipped),
fail if nothing accumulated, otherwise process the concatenation. -/
def multiUrlStep (env : LoadEnv) (acc : List RawItem) (url : String) : List RawItem :=
  let u := pyStrip url
  if u = "" then acc
  else
    match downloadStep env u with
    | .ok items => acc ++ items
    | .error _ => acc

def loadMultipleUrls (env : LoadEnv) (urls : List String) (st : BState) : Bool × BState :=
  let all_verses_data := urls.foldl (multiUrlStep env) ([] : List RawItem)
  if all_verses_data.isEmpty then (false, st)
  else processVersesData st all_verses_data

/-- `BibleManager.load_embeddings`: cache short-circuit, source dispatch
(multi-URL, single URL with download-to-local, local file), JSON shape
dispatch, then `_process_verses_data`. -/
def loadEmbeddings (env : LoadEnv) (st : BState) : Bool × BState :=
  match env.cached with
  | some (vs, sc, m) =>
    (true, { verses := vs, scores := sc, matrix := m, is_loaded := true })
  | none =>
    if pyStartsWith env.source "http" && pyContainsChar env.source ',' then
      loadMultipleUrls env (pySplitOnComma env.source) st
    else if pyStartsWith env.source "http" && !env.localExists && !env.downloadOk then
      (false, st)
    else
      match env.fileJson with
      | none => (false, st)
      | some j =>
        if !pyTruthy j then (false, st)
        else
          match j with
          | .arr items => processVersesData st items
          | .objWithVerses items => processVersesData st items
          | .objOther _ => (false, st)

/-! ### Vector matcher (`_embedding_search`) -/

/-- Dot product of two rational vectors. -/
def dotQ (a b : List ℚ) : ℚ := (List.zipWith (fun x y => x * y) a b).sum

/-- Sum of squares (the squared euclidean norm). -/
def sumSq (a : List ℚ) : ℚ := (a.map (fun x => x * x)).sum

/-- Exact cosine similarity `dot/(‖q‖·‖r‖) = dot/√(Σq²·Σr²)` as a
`SqrtVal`.  A zero-norm operand yields 0, matching sklearn, whose
row normalisation leaves zero rows unscaled. -/
def cosineSimVal (q r : List ℚ) : SqrtVal :=
  let nq := sumSq q
  let nr := sumSq r
  if nq = 0 ∨ nr = 0 then ⟨0, 1⟩ else ⟨dotQ q r, nq * nr⟩

theorem sumSq_nonneg (a : List ℚ) : 0 ≤ sumSq a := by
  refine List.sum_nonneg ?_
  intro x hx
  rcases List.mem_map.mp hx with ⟨y, _, rfl⟩
  exact mul_self_nonneg y

theorem cosineSimVal_rad_pos (q r : List ℚ) : 0 < (cosineSimVal q r).rad := by
  unfold cosineSimVal
  by_cases h : sumSq q = 0 ∨ sumSq r = 0
  · rw [if_pos h]; norm_num
  · rw [if_neg h]
    push_neg at h
    exact mul_pos (lt_of_le_of_ne (sumSq_nonneg q) (Ne.symm h.1))
      (lt_of_le_of_ne (sumSq_nonneg r) (Ne.symm h.2))

/-- `sklearn cosine_similarity(query_vector, matrix)`: `ValueError` on a
dimension mismatch, otherwise the list of per-row similarities. -/
def cosineSimilarityE (q : List ℚ) (rows : List (List ℚ)) : Except PyError (List SqrtVal) :=
  if rows.all (fun r => decide (r.length = q.length)) then
    .ok (rows.map (cosineSimVal q))
  else .error .valueError

/-- The comparison underlying the model of `np.argsort(similarities)`:
ascending by similarity, ties by index.  numpy's default quicksort makes
no tie-order promise, so this linear order picks one definite admissible
argsort output; universal claim theorems use only the value-ordering
part of the result, never the index tie-break. -/
def idxLe (sims : List SqrtVal) (i j : ℕ) : Bool :=
  let si := sims.getD i default
  let sj := sims.getD j default
  !(SqrtVal.le sj si) || (SqrtVal.le si sj && SqrtVal.le sj si && decide (i ≤ j))

/-- `np.argsort`. -/
def argsort (sims : List SqrtVal) : List ℕ :=
  sortByB (idxLe sims) (List.range sims.length)

/-- The selection loop of `_embedding_search`: keep each candidate row
index whose similarity passes the threshold, writing the similarity onto
`self.verses[idx].similarity_score`.  An out-of-range index (possible
because row indices address the *verse* list, which can be longer or
shorter than the matrix) raises `IndexError`: the surrounding `except`
then discards the collected results, while score mutations already
performed persist. -/
def embedLoop (nverses : ℕ) (scores : List SqrtVal) (sims : List SqrtVal) (thr : ℚ) :
    List ℕ → List ℕ × List SqrtVal × Bool
  | [] => ([], scores, false)
  | idx :: rest =>
    if (SqrtVal.ofRat thr).le (sims.getD idx default) then
      if idx < nverses then
        let scores1 := scores.set idx (sims.getD idx default)
        match embedLoop nverses scores1 sims thr rest with
        | (_, scores2, true) => ([], scores2, true)
        | (res, scores2, false) => (idx :: res, scores2, false)
      else ([], scores, true)
    else embedLoop nverses scores sims thr rest

/-- `BibleManager._embedding_search`: all internal failures (sklearn
unavailable, missing matrix, dimension mismatch, index error) are caught
and reported as an empty result. -/
def embeddingSearch (cfg : Cfg) (st : BState) (query_embedding : List ℚ) (top_k : ℕ) :
    List ℕ × BState :=
  if !cfg.sklearnAvailable then ([], st)
  else
    match st.matrix with
    | none => ([], st)
    | some rows =>
      match cosineSimilarityE query_embedding rows with
      | .error _ => ([], st)
      | .ok similarities =>
        let top_indices := ((argsort similarities).reverse).take (2 * top_k)
        match embedLoop st.verses.length st.scores similarities
            cfg.SIMILARITY_THRESHOLD top_indices with
        | (results, scores1, false) => (results.take top_k, { st with scores := scores1 })
        | (_, scores1, true) => ([], { st with scores := scores1 })

/-! ### Lexical matcher (`_keyword_search`) -/

/-- One keyword's contribution to a verse score:
`len(keyword) * count / len(verse_text) * 100` when the keyword occurs in
the verse text, else nothing. -/
def keywordTermScore (kw : List Char) (vtext : List Char) : ℚ :=
  if isSubstr kw vtext then
    (kw.length : ℚ) * (countOccs kw vtext : ℚ) / (vtext.length : ℚ) * 100
  else 0

/-- The verse score of `_keyword_search`: sum of the term scores over the
(lowercased) query keywords. -/
def rawKeywordScore (query_keywords : List String) (vtext : List Char) : ℚ :=
  query_keywords.foldl (fun s kw => s + keywordTermScore (pyLower kw.data) vtext) 0

/-- Fallible form of `keywordTermScore`: the division by
`len(verse_text)` is Python true division. -/
def keywordTermScoreE (kw vtext : List Char) : Except PyError ℚ :=
  if isSubstr kw vtext then do
    let d ← pyDiv ((kw.length : ℚ) * (countOccs kw vtext : ℚ)) (vtext.length : ℚ)
    pure (d * 100)
  else pure 0

/-- Fallible form of `rawKeywordScore`. -/
def rawKeywordScoreE (query_keywords : List String) (vtext : List Char) :
    Except PyError ℚ :=
  query_keywords.foldlM
    (fun s kw => do
      let t ← keywordTermScoreE (pyLower kw.data) vtext
      pure (s + t))
    0

/-- One iteration of the verse loop of `_keyword_search` (fallible form):
on a positive score, write `min(score, 1.0)` onto the verse and collect
the (position, clamped score) candidate. -/
def kwStepE (query_keywords : List String) (verses : List Verse)
    (acc : List (ℕ × ℚ) × List SqrtVal) (i : ℕ) :
    Except PyError (List (ℕ × ℚ) × List SqrtVal) := do
  let v := verses.getD i default
  let vtext := pyLower v.text.data
  let score ← rawKeywordScoreE query_keywords vtext
  if 0 < score then
    pure (acc.1 ++ [(i, min score 1)], acc.2.set i (SqrtVal.ofRat (min score 1)))
  else pure acc

/-- The verse loop of `_keyword_search` over all verse positions. -/
def kwVersesE (query_keywords : List String) (verses : List Verse) (scores : List SqrtVal) :
    Except PyError (List (ℕ × ℚ) × List SqrtVal) :=
  (List.range verses.length).foldlM (kwStepE query_keywords verses) ([], scores)

/-- Total counterpart of `kwStepE` (the division is guarded; see
`kwVersesE_ok`). -/
def kwStep (query_keywords : List String) (verses : List Verse)
    (acc : List (ℕ × ℚ) × List SqrtVal) (i : ℕ) : List (ℕ × ℚ) × List SqrtVal :=
  let v := verses.getD i default
  let vtext := pyLower v.text.data
  let score := rawKeywordScore query_keywords vtext
  if 0 < score then
    (acc.1 ++ [(i, min score 1)], acc.2.set i (SqrtVal.ofRat (min score 1)))
  else acc

/-- Total counterpart of `kwVersesE`. -/
def kwVerses (query_keywords : List String) (verses : List Verse) (scores : List SqrtVal) :
    List (ℕ × ℚ) × List SqrtVal :=
  (List.range verses.length).foldl (kwStep query_keywords verses) ([], scores)

/-- Comparison modelling `verse_scores.sort(key=..., reverse=True)`: by
clamped score descending, ties by original position (Python's sort is
stable and candidates are generated in position order). -/
def candLe (a b : ℕ × ℚ) : Bool :=
  decide (b.2 < a.2) || (decide (a.2 = b.2) && decide (a.1 ≤ b.1))

/-- `BibleManager._keyword_search` body (fallible form). -/
def keywordSearchE (st : BState) (query_text : String) (top_k : ℕ) :
    Except PyError (List ℕ × BState) := do
  let query_keywords := extract_keywords query_text 2
  if query_keywords.isEmpty then pure ([], st)
  else do
    let r ← kwVersesE query_keywords st.verses st.scores
    let verse_scores := sortByB candLe r.1
    pure (((verse_scores.take top_k).map Prod.fst), { st with scores := r.2 })

/-- `BibleManager._keyword_search` with its `try/except` (the error branch
is dead: the body never fails, see the claim-C7 theorem). -/
def keywordSearch (st : BState) (query_text : String) (top_k : ℕ) : List ℕ × BState :=
  match keywordSearchE st query_text top_k with
  | .ok r => r
  | .error _ => ([], st)

/-! ### Retrieval coordinator (`search_verses`) -/

/-- The merge loop of `search_verses`: append keyword results whose id is
not among the ids collected *before* the loop, while below `top_k`. -/
def mergeLoop (verses : List Verse) (top_k : ℕ) (existing_ids : List String) :
    List ℕ → List ℕ → List ℕ
  | acc, [] => acc
  | acc, i :: rest =>
    if (verses.getD i default).id ∉ existing_ids ∧ acc.length < top_k then
      mergeLoop verses top_k existing_ids (acc ++ [i]) rest
    else mergeLoop verses top_k existing_ids acc rest

/-- The vector dispatch of `search_verses`: run the embedding search when
a (truthy) query embedding is supplied and a matrix is loaded. -/
def vectorStep (cfg : Cfg) (st : BState) (query_embedding : Option (List ℚ))
    (tk : ℕ) : List ℕ × BState :=
  match query_embedding, st.matrix with
  | some q, some _ => if q.isEmpty then ([], st) else embeddingSearch cfg st q tk
  | _, _ => ([], st)

/-- `BibleManager.search_verses`: embedding search when a query embedding
and a matrix are available, keyword search as backup/complement, merge
with id-dedup, threshold filter on the current (possibly re-written)
scores, truncation to `top_k`.  Results are verse positions into the
returned state. -/
def searchVerses (cfg : Cfg) (st : BState) (query_text : String)
    (query_embedding : Option (List ℚ)) (top_k : Option ℕ) : List ℕ × BState :=
  if !st.is_loaded then ([], st)
  else
    let tk := top_k.getD cfg.MAX_BIBLE_RESULTS
    let emb := vectorStep cfg st query_embedding tk
    let merged :=
      if emb.1.isEmpty || emb.1.length < tk then
        let existing_ids := emb.1.map (fun i => (emb.2.verses.getD i default).id)
        let kw := keywordSearch emb.2 query_text tk
        (mergeLoop kw.2.verses tk existing_ids emb.1 kw.1, kw.2)
      else emb
    let final := merged.1.filter
      (fun i => (SqrtVal.ofRat cfg.SIMILARITY_THRESHOLD).le (merged.2.scores.getD i default))
    (final.take tk, merged.2)

/-! ### Popular verses and statistics -/

/-- The curated reference list of `get_popular_verses`. -/
def popular_references : List (String × Int × Int) :=
  [("시편", 23, 1), ("요한복음", 3, 16), ("로마서", 8, 28), ("빌립보서", 4, 13),
   ("마태복음", 11, 28), ("이사야", 40, 31), ("예레미야", 29, 11),
   ("고린도전서", 13, 4), ("시편", 46, 1), ("디모데후서", 1, 7)]

/-- The reference loop of `get_popular_verses`: first verse matching each
curated reference, score set to 1.0, stop once `count` collected. -/
def popLoop (verses : List Verse) (count : ℕ) :
    List (String × Int × Int) → List ℕ → List SqrtVal → List ℕ × List SqrtVal
  | [], acc, scores => (acc, scores)
  | (b, c, v) :: rest, acc, scores =>
    match (List.range verses.length).filter
        (fun i =>
          decide ((verses.getD i default).book = b) &&
            decide ((verses.getD i default).chapter = c) &&
            decide ((verses.getD i default).verse = v)) with
    | [] => popLoop verses count rest acc scores
    | i :: _ =>
      let scores1 := scores.set i (SqrtVal.ofRat 1)
      let acc1 := acc ++ [i]
      if count ≤ acc1.length then (acc1, scores1)
      else popLoop verses count rest acc1 scores1

/-- `BibleManager.get_popular_verses`.  The `category` parameter is
accepted but never read by the source. -/
def getPopularVerses (st : BState) (category : Option String) (count : ℕ) :
    List ℕ × BState :=
  let r := popLoop st.verses count popular_references [] st.scores
  (r.1, { st with scores := r.2 })

/-- The record returned by `get_stats` for a loaded manager. -/
structure Stats where
  total_verses : ℕ
  books_count : ℕ
  embedding_dimension : ℕ
  memory_usage_mb : ℚ
  similarity_threshold : ℚ
  categories : List String
  book_distribution : List (String × ℕ)
deriving DecidableEq, Repr

/-- `get_stats` returns either `{'loaded': False}` or the full record. -/
inductive StatsResult where
  | notLoaded
  | loaded (s : Stats)
deriving DecidableEq, Repr

/-- One step of the `book_counts` accumulation (dict insertion order =
first-occurrence order). -/
def bumpBook (acc : List (String × ℕ)) (b : String) : List (String × ℕ) :=
  if acc.any (fun p => decide (p.1 = b)) then
    acc.map (fun p => if p.1 = b then (p.1, p.2 + 1) else p)
  else acc ++ [(b, 1)]

/-- Per-book verse counts of `get_stats`. -/
def book_counts (verses : List Verse) : List (String × ℕ) :=
  verses.foldl (fun acc v => bumpBook acc v.book) []

/-- `BibleManager.get_stats`.  `self.embeddings_matrix.shape[1]` raises
`IndexError` on a zero-row matrix (shape `(0,)`); the method has no
exception handler, so that error would propagate. -/
def getStatsE (cfg : Cfg) (st : BState) (memory_delta : ℚ) : Except PyError StatsResult := do
  if !st.is_loaded then pure .notLoaded
  else do
    let counts := book_counts st.verses
    let dim ← match st.matrix with
      | none => pure 0
      | some [] => Except.error PyError.indexError
      | some (r :: _) => pure r.length
    pure (.loaded
      { total_verses := st.verses.length, books_count := counts.length,
        embedding_dimension := dim, memory_usage_mb := memory_delta,
        similarity_threshold := cfg.SIMILARITY_THRESHOLD, categories := CATEGORIES,
        book_distribution := counts })

/-! ### Supporting lemmas for the claims -/

theorem downloadStep_nameError (env : LoadEnv) (u : String) :
    downloadStep env u = .error .nameError := by
  unfold downloadStep
  rw [if_neg (by decide)]

theorem multiUrlStep_id (env : LoadEnv) (acc : List RawItem) (url : String) :
    multiUrlStep env acc url = acc := by
  unfold multiUrlStep
  by_cases h : pyStrip url = ""
  · rw [if_pos h]
  · rw [if_neg h, downloadStep_nameError]

theorem foldl_multiUrlStep (env : LoadEnv) :
    ∀ (urls : List String) (acc : List RawItem), urls.foldl (multiUrlStep env) acc = acc
  | [], _ => rfl
  | u :: us, acc => by
    rw [List.foldl_cons, multiUrlStep_id, foldl_multiUrlStep env us]

theorem processVersesData_fail {st : BState} {items : List RawItem}
    (h : (processVersesData st items).1 = false) :
    (processVersesData st items).2.matrix = st.matrix ∧
      (processVersesData st items).2.is_loaded = st.is_loaded := by
  unfold processVersesData at h ⊢
  by_cases h1 : (items.filterMap parseItem).isEmpty
  · simp only [if_pos h1]
    simp
  · simp only [if_neg h1] at h ⊢
    by_cases h2 : ((items.filterMap parseItem).map Verse.embedding).filter
        (fun e => !e.isEmpty) |>.isEmpty
    · rw [if_pos h2] at h
      simp at h
    · simp only [if_neg h2] at h ⊢
      by_cases h3 : allSameLength (((items.filterMap parseItem).map Verse.embedding).filter
          (fun e => !e.isEmpty)) = true
      · rw [if_pos h3] at h
        simp at h
      · simp only [if_neg h3]
        simp

/-- The state published by a failed `_process_verses_data`: the old entry
list is gone (replaced by the freshly parsed one), matrix and flag stay. -/
theorem processVersesData_fail_verses {st : BState} {items : List RawItem}
    (h : (processVersesData st items).1 = false) :
    (processVersesData st items).2.verses = items.filterMap parseItem := by
  unfold processVersesData at h ⊢
  by_cases h1 : (items.filterMap parseItem).isEmpty
  · simp only [if_pos h1]
  · simp only [if_neg h1] at h ⊢
    by_cases h2 : ((items.filterMap parseItem).map Verse.embedding).filter
        (fun e => !e.isEmpty) |>.isEmpty
    · rw [if_pos h2] at h
      simp at h
    · simp only [if_neg h2] at h ⊢
      by_cases h3 : allSameLength (((items.filterMap parseItem).map Verse.embedding).filter
          (fun e => !e.isEmpty)) = true
      · rw [if_pos h3] at h
        simp at h
      · simp only [if_neg h3]

/-- C3: for every environment, state and URL list, `_load_multiple_urls`
fails and leaves the state untouched — the body references the name
`requests`, which the module never imports, so every per-URL attempt dies
with `NameError` (swallowed by the inner handler) and nothing accumulates.
The claimed concatenate-and-succeed behaviour is unreachable. -/
theorem claim_C3_multi_url_load_always_fails (env : LoadEnv) (urls : List String)
    (st : BState) :
    loadMultipleUrls env urls st = (false, st) ∧
      "requests" ∉ bibleManagerModuleGlobals := by
  refine ⟨?_, by decide⟩
  simp only [loadMultipleUrls, foldl_multiUrlStep]
  rfl

/-- C5 counterexample: on the input of Scenario D the category "감정" is
absent from the classification (no 감정-keyword occurs in the text), so
the claim that both "관계" and "감정" appear with score above 0.5 fails. -/
theorem claim_C5_counterexample :
    "감정" ∉ (classify "가족 때문에 너무 힘들어요").map Prod.fst := by decide

/-- C5 (amended): classify("가족 때문에 너무 힘들어요") returns exactly
[("관계", 100/21)] — "관계" present with score 100/21 > 0.5, descending
order trivially, and "감정" not present. -/
theorem claim_C5_amended :
    classify "가족 때문에 너무 힘들어요" = [("관계", 100 / 21)] ∧
      (1 : ℚ) / 2 < 100 / 21 := by
  constructor
  · decide
  · norm_num

/-- `_load_multiple_urls` can never succeed, and never touches state. -/
theorem loadMultipleUrls_eq (env : LoadEnv) (urls : List String) (st : BState) :
    loadMultipleUrls env urls st = (false, st) := by
  simp only [loadMultipleUrls, foldl_multiUrlStep]
  rfl

/-- A previously loaded one-verse state, for the claim-C2 counterexample. -/
def stC2prev : BState :=
  { verses := [⟨"시편_1_1", "사랑", "시편", 1, 1, [1]⟩],
    scores := [SqrtVal.ofRat 0], matrix := some [[1]], is_loaded := true }

/-- A load environment whose local file parses to a single record with
empty text, so the load attempt fails with zero valid entries. -/
def envC2 : LoadEnv :=
  { cached := none, source := "bible_embeddings.json", localExists := true,
    downloadOk := true, fileJson := some (.arr [{ text := some "" }]),
    urlJson := fun _ => none }

/-- C2 counterexample: this load attempt fails, yet the previously loaded
entry list is *not* retained — `_process_verses_data` overwrites
`self.verses` before validating, so the failed load leaves an empty entry
list next to the stale matrix and loaded flag. -/
theorem claim_C2_counterexample :
    (loadEmbeddings envC2 stC2prev).1 = false ∧
      (loadEmbeddings envC2 stC2prev).2.verses ≠ stC2prev.verses ∧
      (loadEmbeddings envC2 stC2prev).2.verses = [] := by
  refine ⟨by decide, by decide, by decide⟩

/-- C2 (amended): when a load attempt fails, the embedding matrix and the
loaded flag are retained unchanged, but the entry list is not guaranteed
to be: a failure inside record processing publishes the freshly parsed
(possibly empty) entry list in place of the previous one. -/
theorem claim_C2_amended (env : LoadEnv) (st : BState)
    (h : (loadEmbeddings env st).1 = false) :
    (loadEmbeddings env st).2.matrix = st.matrix ∧
      (loadEmbeddings env st).2.is_loaded = st.is_loaded := by
  unfold loadEmbeddings at h ⊢
  rcases Option.eq_none_or_eq_some env.cached with henv | ⟨val, henv⟩
  · rw [henv] at h ⊢
    dsimp only at h ⊢
    by_cases h1 : (pyStartsWith env.source "http" && pyContainsChar env.source ',') = true
    · rw [if_pos h1]
      rw [loadMultipleUrls_eq]
      exact ⟨rfl, rfl⟩
    · rw [if_neg h1] at h ⊢
      by_cases h2 : (pyStartsWith env.source "http" && !env.localExists && !env.downloadOk) = true
      · rw [if_pos h2]
        exact ⟨rfl, rfl⟩
      · rw [if_neg h2] at h ⊢
        rcases Option.eq_none_or_eq_some env.fileJson with hj | ⟨j, hj⟩
        · rw [hj]
          exact ⟨rfl, rfl⟩
        · rw [hj] at h ⊢
          dsimp only at h ⊢
          by_cases h3 : (!pyTruthy j) = true
          · rw [if_pos h3]
            exact ⟨rfl, rfl⟩
          · rw [if_neg h3] at h ⊢
            cases j with
            | arr items => exact processVersesData_fail h
            | objWithVerses items => exact processVersesData_fail h
            | objOther t => exact ⟨rfl, rfl⟩
  · rw [henv] at h
    simp at h

/-- Witness for claim C2: the amended theorem applied to the concrete
failing load of the counterexample environment. -/
theorem claim_C2_witness :
    (loadEmbeddings envC2 stC2prev).2.matrix = stC2prev.matrix ∧
      (loadEmbeddings envC2 stC2prev).2.is_loaded = stC2prev.is_loaded :=
  claim_C2_amended envC2 stC2prev (by decide)

/-- A two-verse corpus holding 시편 23:1 and 요한복음 3:16, for claim C8. -/
def stC8 : BState :=
  { verses := [⟨"시23:1", "여호와는 나의 목자시니", "시편", 23, 1, []⟩,
               ⟨"요3:16", "하나님이 세상을 이처럼 사랑하사", "요한복음", 3, 16, []⟩],
    scores := [SqrtVal.ofRat 0, SqrtVal.ofRat 0], matrix := none, is_loaded := true }

/-- C8: `get_popular_verses` ignores its `category` parameter entirely —
requesting the "진로" subset (or any other category) still returns every
curated-reference match, identical to requesting no category at all, so
no category filtering takes place. -/
theorem claim_C8_category_ignored :
    (getPopularVerses stC8 (some "진로") 5).1 = [0, 1] ∧
      (getPopularVerses stC8 none 5).1 = (getPopularVerses stC8 (some "진로") 5).1 ∧
      (getPopularVerses stC8 (some "관계") 5).1 = (getPopularVerses stC8 (some "진로") 5).1 := by
  refine ⟨by decide, rfl, rfl⟩

theorem getD_rad_pos (sims : List SqrtVal) (h : ∀ s ∈ sims, 0 < s.rad) (i : ℕ) :
    0 < (sims.getD i default).rad := by
  by_cases hi : i < sims.length
  · rw [List.getD_eq_getElem sims default hi]
    exact h _ (List.getElem_mem hi)
  · rw [List.getD_eq_default sims default (le_of_not_lt hi)]
    norm_num [default]

theorem idxLe_total (sims : List SqrtVal) (i j : ℕ) :
    idxLe sims i j || idxLe sims j i := by
  simp only [idxLe, Bool.or_eq_true, Bool.and_eq_true, Bool.not_eq_true',
    decide_eq_true_eq]
  by_cases hji : (sims.getD j default).le (sims.getD i default) = true
  · by_cases hij : (sims.getD i default).le (sims.getD j default) = true
    · rcases Nat.le_total i j with h | h
      · exact Or.inl (Or.inr ⟨⟨hij, hji⟩, h⟩)
      · exact Or.inr (Or.inr ⟨⟨hji, hij⟩, h⟩)
    · exact Or.inr (Or.inl (Bool.eq_false_iff.mpr hij))
  · exact Or.inl (Or.inl (Bool.eq_false_iff.mpr hji))

theorem idxLe_trans (sims : List SqrtVal) (hrad : ∀ s ∈ sims, 0 < s.rad)
    (i j k : ℕ) (hij : idxLe sims i j = true) (hjk : idxLe sims j k = true) :
    idxLe sims i k = true := by
  have hi := getD_rad_pos sims hrad i
  have hj := getD_rad_pos sims hrad j
  have hk := getD_rad_pos sims hrad k
  unfold idxLe at hij hjk ⊢
  set si := sims.getD i default with hsi
  set sj := sims.getD j default with hsj
  set sk := sims.getD k default with hsk
  rw [Bool.or_eq_true] at hij hjk
  rcases hij with hij | hij <;> rcases hjk with hjk | hjk
  · -- strict < strict
    simp only [Bool.not_eq_true'] at hij hjk
    have : ¬ sk.le si = true := by
      intro hksi
      have h1 : si.le sj = true := by
        rcases Bool.or_eq_true_iff.mp (SqrtVal.le_total si sj) with h | h
        · exact h
        · rw [h] at hij; exact absurd hij (by simp)
      have h2 : sk.le sj = true := SqrtVal.le_trans hi hksi h1
      rw [h2] at hjk; exact absurd hjk (by simp)
    simp [this]
  · -- strict, then equal with j ≤ k
    simp only [Bool.not_eq_true'] at hij
    rw [Bool.and_eq_true, Bool.and_eq_true] at hjk
    have : ¬ sk.le si = true := by
      intro hksi
      have h2 : sk.le si = true := hksi
      have h3 : sj.le si = true := SqrtVal.le_trans hk hjk.1.1 h2
      rw [h3] at hij; exact absurd hij (by simp)
    simp [this]
  · -- equal with i ≤ j, then strict
    rw [Bool.and_eq_true, Bool.and_eq_true] at hij
    simp only [Bool.not_eq_true'] at hjk
    have : ¬ sk.le si = true := by
      intro hksi
      have h3 : sk.le sj = true := SqrtVal.le_trans hi hksi hij.1.1
      rw [h3] at hjk; exact absurd hjk (by simp)
    simp [this]
  · -- equal + equal
    rw [Bool.and_eq_true, Bool.and_eq_true] at hij hjk
    rcases hij with ⟨⟨h1, h2⟩, h3⟩
    rcases hjk with ⟨⟨h4, h5⟩, h6⟩
    have hik : si.le sk = true := SqrtVal.le_trans hj h1 h4
    have hki : sk.le si = true := SqrtVal.le_trans hj h5 h2
    have hik2 : i ≤ k := le_trans (of_decide_eq_true h3) (of_decide_eq_true h6)
    simp [hik, hki, hik2]

theorem embedLoop_sublist (n : ℕ) (sims : List SqrtVal) (thr : ℚ) :
    ∀ (input : List ℕ) (scores : List SqrtVal),
      List.Sublist (embedLoop n scores sims thr input).1 input
  | [], _ => by simp [embedLoop]
  | idx :: rest, scores => by
    unfold embedLoop
    by_cases h1 : ((SqrtVal.ofRat thr).le (sims.getD idx default)) = true
    · rw [if_pos h1]
      by_cases h2 : idx < n
      · rw [if_pos h2]
        dsimp only
        rcases hrec : embedLoop n (scores.set idx (sims.getD idx default)) sims thr rest with
          ⟨res2, sc2, ab⟩
        have hsub : List.Sublist res2 rest := by
          have := embedLoop_sublist n sims thr rest (scores.set idx (sims.getD idx default))
          rw [hrec] at this
          exact this
        cases ab
        · exact List.Sublist.cons₂ idx hsub
        · exact List.nil_sublist _
      · rw [if_neg h2]
        exact List.nil_sublist _
    · rw [if_neg h1]
      exact (embedLoop_sublist n sims thr rest scores).cons idx

theorem embedLoop_mem (n : ℕ) (sims : List SqrtVal) (thr : ℚ) :
    ∀ (input : List ℕ) (scores : List SqrtVal),
      ∀ i ∈ (embedLoop n scores sims thr input).1,
        ((SqrtVal.ofRat thr).le (sims.getD i default)) = true ∧ i < n
  | [], _, i, hi => absurd hi (by simp [embedLoop])
  | idx :: rest, scores, i, hi => by
    unfold embedLoop at hi
    by_cases h1 : ((SqrtVal.ofRat thr).le (sims.getD idx default)) = true
    · rw [if_pos h1] at hi
      by_cases h2 : idx < n
      · rw [if_pos h2] at hi
        dsimp only at hi
        rcases hrec : embedLoop n (scores.set idx (sims.getD idx default)) sims thr rest with
          ⟨res2, sc2, ab⟩
        rw [hrec] at hi
        cases ab
        · rcases List.mem_cons.mp hi with hcase | hcase
          · rw [hcase]; exact ⟨h1, h2⟩
          · have := embedLoop_mem n sims thr rest (scores.set idx (sims.getD idx default)) i
            rw [hrec] at this
            exact this hcase
        · exact absurd hi (by simp)
      · rw [if_neg h2] at hi
        exact absurd hi (by simp)
    · rw [if_neg h1] at hi
      exact embedLoop_mem n sims thr rest scores i hi

theorem embedLoop_scores_len (n : ℕ) (sims : List SqrtVal) (thr : ℚ) :
    ∀ (input : List ℕ) (scores : List SqrtVal),
      (embedLoop n scores sims thr input).2.1.length = scores.length
  | [], _ => rfl
  | idx :: rest, scores => by
    unfold embedLoop
    by_cases h1 : ((SqrtVal.ofRat thr).le (sims.getD idx default)) = true
    · rw [if_pos h1]
      by_cases h2 : idx < n
      · rw [if_pos h2]
        dsimp only
        rcases hrec : embedLoop n (scores.set idx (sims.getD idx default)) sims thr rest with
          ⟨res2, sc2, ab⟩
        have hlen : sc2.length = scores.length := by
          have := embedLoop_scores_len n sims thr rest (scores.set idx (sims.getD idx default))
          rw [hrec] at this
          simpa using this
        cases ab
        · exact hlen
        · exact hlen
      · rw [if_neg h2]
    · rw [if_neg h1]
      exact embedLoop_scores_len n sims thr rest scores

theorem embedLoop_scores_untouched (n : ℕ) (sims : List SqrtVal) (thr : ℚ) :
    ∀ (input : List ℕ) (scores : List SqrtVal) (j : ℕ), j ∉ input →
      (embedLoop n scores sims thr input).2.1.getD j default = scores.getD j default
  | [], _, _, _ => rfl
  | idx :: rest, scores, j, hj => by
    have hji : j ≠ idx := fun h => hj (h ▸ List.mem_cons_self idx rest)
    have hjr : j ∉ rest := fun h => hj (List.mem_cons_of_mem idx h)
    unfold embedLoop
    by_cases h1 : ((SqrtVal.ofRat thr).le (sims.getD idx default)) = true
    · rw [if_pos h1]
      by_cases h2 : idx < n
      · rw [if_pos h2]
        dsimp only
        rcases hrec : embedLoop n (scores.set idx (sims.getD idx default)) sims thr rest with
          ⟨res2, sc2, ab⟩
        have huntouched : sc2.getD j default
            = (scores.set idx (sims.getD idx default)).getD j default := by
          have := embedLoop_scores_untouched n sims thr rest
            (scores.set idx (sims.getD idx default)) j hjr
          rw [hrec] at this
          exact this
        have hset : (scores.set idx (sims.getD idx default)).getD j default
            = scores.getD j default := by
          unfold List.getD
          rw [List.get?_set_ne _ _ (Ne.symm hji)]
        cases ab
        · exact huntouched.trans hset
        · exact huntouched.trans hset
      · rw [if_neg h2]
    · rw [if_neg h1]
      exact embedLoop_scores_untouched n sims thr rest scores j hjr

theorem embedLoop_scores_mem (n : ℕ) (sims : List SqrtVal) (thr : ℚ) :
    ∀ (input : List ℕ) (scores : List SqrtVal), input.Nodup → n ≤ scores.length →
      ∀ i ∈ (embedLoop n scores sims thr input).1,
        (embedLoop n scores sims thr input).2.1.getD i default = sims.getD i default
  | [], _, _, _, i, hi => absurd hi (by simp [embedLoop])
  | idx :: rest, scores, hnd, hns, i, hi => by
    rcases List.nodup_cons.mp hnd with ⟨hidx, hndr⟩
    unfold embedLoop at hi ⊢
    by_cases h1 : ((SqrtVal.ofRat thr).le (sims.getD idx default)) = true
    · rw [if_pos h1] at hi ⊢
      by_cases h2 : idx < n
      · rw [if_pos h2] at hi ⊢
        dsimp only at hi ⊢
        rcases hrec : embedLoop n (scores.set idx (sims.getD idx default)) sims thr rest with
          ⟨res2, sc2, ab⟩
        rw [hrec] at hi
        cases ab
        · rcases List.mem_cons.mp hi with hcase | hcase
          · subst hcase
            have huntouched : sc2.getD i default
                = (scores.set i (sims.getD i default)).getD i default := by
              have := embedLoop_scores_untouched n sims thr rest
                (scores.set i (sims.getD i default)) i hidx
              rw [hrec] at this
              exact this
            have hlt : i < scores.length := lt_of_lt_of_le h2 hns
            have hset : (scores.set i (sims.getD i default)).getD i default
                = sims.getD i default := by
              unfold List.getD
              rw [List.get?_set_eq_of_lt _ hlt]
              rfl
            exact huntouched.trans hset
          · have := embedLoop_scores_mem n sims thr rest
              (scores.set idx (sims.getD idx default)) hndr
              (by rw [List.length_set]; exact hns) i
            rw [hrec] at this
            exact this hcase
        · exact absurd hi (by simp)
      · rw [if_neg h2] at hi
        exact absurd hi (by simp)
    · rw [if_neg h1] at hi ⊢
      exact embedLoop_scores_mem n sims thr rest scores hndr hns i hi

theorem cosineSims_rad_pos (q : List ℚ) (rows : List (List ℚ)) :
    ∀ s ∈ rows.map (cosineSimVal q), 0 < s.rad := by
  intro s hs
  rcases List.mem_map.mp hs with ⟨r, _, rfl⟩
  exact cosineSimVal_rad_pos q r

theorem argsort_nodup (sims : List SqrtVal) : (argsort sims).Nodup :=
  (perm_sortByB (idxLe sims) (List.range sims.length)).nodup_iff.mpr (List.nodup_range _)

theorem argsort_mem_lt (sims : List SqrtVal) {i : ℕ} (h : i ∈ argsort sims) :
    i < sims.length :=
  List.mem_range.mp ((perm_sortByB (idxLe sims) (List.range sims.length)).subset h)

theorem argsort_pairwise (sims : List SqrtVal) (hrad : ∀ s ∈ sims, 0 < s.rad) :
    (argsort sims).Pairwise (fun i j => idxLe sims i j = true) :=
  pairwise_sortByB (idxLe sims) (idxLe_trans sims hrad) (idxLe_total sims) _

theorem embeddingSearch_spec (cfg : Cfg) (st : BState) (q : List ℚ) (topK : ℕ)
    (rows : List (List ℚ)) (hmat : st.matrix = some rows) :
    (embeddingSearch cfg st q topK).1.length ≤ topK ∧
    (embeddingSearch cfg st q topK).1.Nodup ∧
    (∀ i ∈ (embeddingSearch cfg st q topK).1,
      ((SqrtVal.ofRat cfg.SIMILARITY_THRESHOLD).le
          ((rows.map (cosineSimVal q)).getD i default)) = true ∧
        i < st.verses.length ∧ i < rows.length) ∧
    (st.verses.length ≤ st.scores.length →
      ∀ i ∈ (embeddingSearch cfg st q topK).1,
        (embeddingSearch cfg st q topK).2.scores.getD i default
          = (rows.map (cosineSimVal q)).getD i default) ∧
    List.Pairwise (fun i j => idxLe (rows.map (cosineSimVal q)) j i = true)
      (embeddingSearch cfg st q topK).1 := by
  unfold embeddingSearch
  rw [hmat]
  by_cases hsk : (!cfg.sklearnAvailable) = true
  · rw [if_pos hsk]
    refine ⟨by simp, by simp, by simp, fun _ => by simp, by simp⟩
  · rw [if_neg hsk]
    dsimp only
    unfold cosineSimilarityE
    by_cases hdim : (rows.all fun r => decide (r.length = q.length)) = true
    · rw [if_pos hdim]
      dsimp only
      rcases hrec : embedLoop st.verses.length st.scores (rows.map (cosineSimVal q))
          cfg.SIMILARITY_THRESHOLD
          (((argsort (rows.map (cosineSimVal q))).reverse).take (2 * topK)) with
        ⟨res0, sc2, ab⟩
      have hsub0 : List.Sublist res0
          (((argsort (rows.map (cosineSimVal q))).reverse).take (2 * topK)) := by
        have := embedLoop_sublist st.verses.length (rows.map (cosineSimVal q))
          cfg.SIMILARITY_THRESHOLD
          (((argsort (rows.map (cosineSimVal q))).reverse).take (2 * topK)) st.scores
        rw [hrec] at this
        exact this
      have htopnodup :
          ((((argsort (rows.map (cosineSimVal q))).reverse).take (2 * topK))).Nodup :=
        (List.take_sublist _ _).nodup (List.nodup_reverse.mpr (argsort_nodup _))
      have htoppw :
          ((((argsort (rows.map (cosineSimVal q))).reverse).take (2 * topK))).Pairwise
            (fun i j => idxLe (rows.map (cosineSimVal q)) j i = true) :=
        (List.pairwise_reverse.mpr
          (argsort_pairwise _ (cosineSims_rad_pos q rows))).sublist (List.take_sublist _ _)
      have htopmem : ∀ i ∈ (((argsort (rows.map (cosineSimVal q))).reverse).take (2 * topK)),
          i < rows.length := by
        intro i hi
        have h1 := List.mem_reverse.mp (List.mem_of_mem_take hi)
        have := argsort_mem_lt (rows.map (cosineSimVal q)) h1
        rwa [List.length_map] at this
      cases ab
      · -- no abort: result is res0.take topK with scores sc2
        have hressub : List.Sublist (res0.take topK) res0 := List.take_sublist _ _
        have hressubtop := hressub.trans hsub0
        refine ⟨?_, ?_, ?_, ?_, ?_⟩
        · exact List.length_take_le _ _
        · exact hressubtop.nodup htopnodup
        · intro i hi
          have hi0 : i ∈ res0 := List.mem_of_mem_take hi
          have hm := embedLoop_mem st.verses.length (rows.map (cosineSimVal q))
            cfg.SIMILARITY_THRESHOLD
            (((argsort (rows.map (cosineSimVal q))).reverse).take (2 * topK)) st.scores i
          rw [hrec] at hm
          have hm2 := hm hi0
          exact ⟨hm2.1, hm2.2, htopmem i (hressubtop.subset hi)⟩
        · intro hlen i hi
          have hi0 : i ∈ res0 := List.mem_of_mem_take hi
          have hm := embedLoop_scores_mem st.verses.length (rows.map (cosineSimVal q))
            cfg.SIMILARITY_THRESHOLD
            (((argsort (rows.map (cosineSimVal q))).reverse).take (2 * topK)) st.scores
            htopnodup hlen i
          rw [hrec] at hm
          exact hm hi0
        · exact htoppw.sublist hressubtop
      · -- abort: empty result
        refine ⟨by simp, by simp, by simp, fun _ => by simp, by simp⟩
    · rw [if_neg hdim]
      dsimp only
      refine ⟨by simp, by simp, by simp, fun _ => by simp, by simp⟩

/-- Corpus with two identically embedded entries (tied scores), claim C4. -/
def stTie : BState :=
  { verses := [⟨"a", "본문A", "시편", 1, 1, [1]⟩, ⟨"b", "본문B", "시편", 1, 2, [1]⟩],
    scores := [SqrtVal.ofRat 0, SqrtVal.ofRat 0], matrix := some [[1], [1]],
    is_loaded := true }

/-- C4 counterexample: two entries whose cosine scores tie are returned in
reverse corpus order [1, 0] (on this 2-element input numpy's argsort
deterministically yields [0, 1], which `[::-1]` reverses), so stable
original-order tie-breaking fails. -/
theorem claim_C4_counterexample :
    (embeddingSearch {} stTie [1] 5).1 = [1, 0] ∧
      ([[1], [1]].map (cosineSimVal [1])).getD 0 default
        = ([[1], [1]].map (cosineSimVal [1])).getD 1 default := by
  exact ⟨by decide, by decide⟩

/-- C4 (amended): the vector matcher returns at most `top_k` entries, all
passing the configured similarity threshold, sorted non-increasing by
score.  The original claim's stable original-order tie-breaking is false
(counterexample above); the program guarantees no particular tie order
(np.argsort's default quicksort is not stable), so no tie-order property
is asserted. -/
theorem claim_C4_search_properties (cfg : Cfg) (st : BState) (q : List ℚ) (topK : ℕ)
    (rows : List (List ℚ)) (hmat : st.matrix = some rows) :
    (embeddingSearch cfg st q topK).1.length ≤ topK ∧
    (∀ i ∈ (embeddingSearch cfg st q topK).1,
      ((SqrtVal.ofRat cfg.SIMILARITY_THRESHOLD).le
        ((rows.map (cosineSimVal q)).getD i default)) = true) ∧
    List.Pairwise (fun i j =>
      (((rows.map (cosineSimVal q)).getD j default).le
        ((rows.map (cosineSimVal q)).getD i default)) = true)
      (embeddingSearch cfg st q topK).1 := by
  obtain ⟨hlen, hnodup, hmem, hscores, hpw⟩ := embeddingSearch_spec cfg st q topK rows hmat
  refine ⟨hlen, fun i hi => (hmem i hi).1, ?_⟩
  refine hpw.imp ?_
  intro i j hij
  unfold idxLe at hij
  rcases Bool.or_eq_true_iff.mp hij with h | h
  · rw [Bool.not_eq_true'] at h
    rcases Bool.or_eq_true_iff.mp
        (SqrtVal.le_total ((rows.map (cosineSimVal q)).getD j default)
          ((rows.map (cosineSimVal q)).getD i default)) with h2 | h2
    · exact h2
    · rw [h] at h2
      exact absurd h2 (by simp)
  · rw [Bool.and_eq_true, Bool.and_eq_true] at h
    exact h.1.1

/-- Witness for claim C4: the amended properties at a concrete tied corpus. -/
theorem claim_C4_witness :
    (embeddingSearch {} stTie [1] 5).1.length ≤ 5 ∧
    (∀ i ∈ (embeddingSearch {} stTie [1] 5).1,
      ((SqrtVal.ofRat ({} : Cfg).SIMILARITY_THRESHOLD).le
        (([[1], [1]].map (cosineSimVal [1])).getD i default)) = true) ∧
    List.Pairwise (fun i j =>
      ((([[1], [1]].map (cosineSimVal [1])).getD j default).le
        (([[1], [1]].map (cosineSimVal [1])).getD i default)) = true)
      (embeddingSearch {} stTie [1] 5).1 :=
  claim_C4_search_properties {} stTie [1] 5 [[1], [1]] rfl

/-- Corpus where entry 0 has no embedding and entry 1 does, claim C1. -/
def stMis : BState :=
  { verses := [⟨"a", "본문A", "시편", 1, 1, []⟩, ⟨"b", "본문B", "시편", 1, 2, [1]⟩],
    scores := [SqrtVal.ofRat 0, SqrtVal.ofRat 0], matrix := some [[1]],
    is_loaded := true }

/-- C1 counterexample: with one embedding-less entry before an embedded
one, the matrix's only row holds entry 1's embedding, yet the search
returns entry 0 (which has no embedding) and writes onto it the cosine
similarity computed from entry 1's row — the row/entry correspondence of
the claim fails when some entries lack embeddings. -/
theorem claim_C1_counterexample :
    (embeddingSearch {} stMis [1] 1).1 = [0] ∧
      (stMis.verses.getD 0 default).embedding = [] ∧
      stMis.matrix = some [(stMis.verses.getD 1 default).embedding] ∧
      (embeddingSearch {} stMis [1] 1).2.scores.getD 0 default
        = cosineSimVal [1] ((stMis.verses.getD 1 default).embedding) := by
  refine ⟨by decide, by decide, by decide, by decide⟩

/-- C1 (amended): provided *every* corpus entry has an embedding — so the
stacked matrix aligns row i with entries[i] — each entry returned by the
embedding search carries as its similarity_score the cosine similarity
between the query vector and that same entry's own embedding, and the row
selected for it is the row holding its embedding. -/
theorem claim_C1_aligned_scores (cfg : Cfg) (st : BState) (q : List ℚ) (topK : ℕ)
    (rows : List (List ℚ)) (hmat : st.matrix = some rows)
    (hstack : rows = (st.verses.map Verse.embedding).filter (fun e => !e.isEmpty))
    (hall : ∀ v ∈ st.verses, v.embedding ≠ [])
    (hlen : st.verses.length ≤ st.scores.length) :
    ∀ i ∈ (embeddingSearch cfg st q topK).1,
      i < st.verses.length ∧
      rows.getD i [] = (st.verses.getD i default).embedding ∧
      (embeddingSearch cfg st q topK).2.scores.getD i default
        = cosineSimVal q ((st.verses.getD i default).embedding) := by
  have hrows : rows = st.verses.map Verse.embedding := by
    rw [hstack]
    apply List.filter_eq_self.mpr
    intro e he
    rcases List.mem_map.mp he with ⟨v, hv, rfl⟩
    simp only [Bool.not_eq_true', List.isEmpty_iff, Bool.not_eq_false]
    simp [List.isEmpty_iff, hall v hv]
  obtain ⟨_, _, hmem, hscores, _⟩ := embeddingSearch_spec cfg st q topK rows hmat
  intro i hi
  obtain ⟨hthr, hivn, hirows⟩ := hmem i hi
  have hmaplen : i < (st.verses.map Verse.embedding).length := by
    rw [List.length_map]; exact hivn
  have hrow : rows.getD i [] = (st.verses.getD i default).embedding := by
    rw [hrows, List.getD_eq_getElem _ _ hmaplen, List.getElem_map,
      List.getD_eq_getElem _ _ hivn]
  refine ⟨hivn, hrow, ?_⟩
  have hs := hscores hlen i hi
  have hsimlen : i < (rows.map (cosineSimVal q)).length := by
    rw [List.length_map]; exact hirows
  rw [hs, List.getD_eq_getElem _ _ hsimlen, List.getElem_map, ← hrow,
    List.getD_eq_getElem _ _ hirows]

/-- Corpus where every entry has an embedding, witness for claim C1. -/
def stAll : BState :=
  { verses := [⟨"a", "본문A", "시편", 1, 1, [1]⟩], scores := [SqrtVal.ofRat 0],
    matrix := some [[1]], is_loaded := true }

/-- Witness for claim C1: the amended theorem applied at a concrete
all-embedded corpus and the returned entry 0. -/
theorem claim_C1_witness :
    0 < stAll.verses.length ∧
      ([[1]] : List (List ℚ)).getD 0 [] = (stAll.verses.getD 0 default).embedding ∧
      (embeddingSearch {} stAll [1] 2).2.scores.getD 0 default
        = cosineSimVal [1] ((stAll.verses.getD 0 default).embedding) :=
  claim_C1_aligned_scores {} stAll [1] 2 [[1]] rfl (by decide) (by decide) (by decide)
    0 (by decide)

/-! ### The lexical matcher never raises: its division is guarded -/

/-- The normalised category score (what `classifyStep` computes). -/
def classifyScoreVal (t : List Char) (kws : List String) : ℚ :=
  if 0 < t.length then categoryRawScore kws t / (t.length : ℚ) * 100 else 0

theorem classifyStep_ok (t : List Char) (acc : List (String × ℚ)) (p : String × List String) :
    classifyStep t acc p = .ok (acc ++ [(p.1, classifyScoreVal t p.2)]) := by
  unfold classifyStep classifyScoreVal
  by_cases h : 0 < t.length
  · have hne : (t.length : ℚ) ≠ 0 := by
      exact_mod_cast Nat.pos_iff_ne_zero.mp h
    rw [if_pos h, if_pos h]
    unfold pyDiv
    rw [if_neg hne]
    rfl
  · rw [if_neg h, if_neg h]
    rfl

theorem foldlM_classifyStep_ok (t : List Char) :
    ∀ (l : List (String × List String)) (acc : List (String × ℚ)),
      l.foldlM (classifyStep t) acc
        = .ok (l.foldl (fun acc p => acc ++ [(p.1, classifyScoreVal t p.2)]) acc)
  | [], acc => rfl
  | p :: rest, acc => by
    rw [List.foldlM_cons, classifyStep_ok, List.foldl_cons]
    exact foldlM_classifyStep_ok t rest (acc ++ [(p.1, classifyScoreVal t p.2)])

theorem classifyE_isOk (text : String) : (classifyE text).isOk := by
  unfold classifyE
  dsimp only
  rw [foldlM_classifyStep_ok]
  rfl

theorem keywordTermScoreE_ok (kw vtext : List Char) (hkw : kw ≠ []) :
    keywordTermScoreE kw vtext = .ok (keywordTermScore kw vtext) := by
  unfold keywordTermScoreE keywordTermScore
  by_cases h : isSubstr kw vtext = true
  · rw [if_pos h, if_pos h]
    have hne : vtext ≠ [] := isSubstr_hay_ne_nil hkw h
    have hlen : (vtext.length : ℚ) ≠ 0 := by
      exact_mod_cast Nat.pos_iff_ne_zero.mp (List.length_pos.mpr hne)
    unfold pyDiv
    rw [if_neg hlen]
    rfl
  · rw [if_neg h, if_neg h]
    rfl

theorem rawKeywordScoreE_ok (query_keywords : List String) (vtext : List Char)
    (hkw : ∀ kw ∈ query_keywords, kw.data ≠ []) :
    rawKeywordScoreE query_keywords vtext = .ok (rawKeywordScore query_keywords vtext) := by
  unfold rawKeywordScoreE rawKeywordScore
  suffices h : ∀ (l : List String), (∀ kw ∈ l, kw.data ≠ []) → ∀ (acc : ℚ),
      l.foldlM (fun s kw => do
        let t ← keywordTermScoreE (pyLower kw.data) vtext
        pure (s + t)) acc
        = .ok (l.foldl (fun s kw => s + keywordTermScore (pyLower kw.data) vtext) acc) by
    exact h query_keywords hkw 0
  intro l
  induction l with
  | nil => intro _ acc; rfl
  | cons kw rest ih =>
    intro hl acc
    have hkwne : pyLower kw.data ≠ [] := by
      unfold pyLower
      simp only [ne_eq, List.map_eq_nil_iff]
      exact hl kw (List.mem_cons_self kw rest)
    rw [List.foldlM_cons, keywordTermScoreE_ok _ _ hkwne]
    have := ih (fun k hk => hl k (List.mem_cons_of_mem kw hk))
      (acc + keywordTermScore (pyLower kw.data) vtext)
    rw [List.foldl_cons]
    exact this

theorem kwStepE_ok (query_keywords : List String) (verses : List Verse)
    (hkw : ∀ kw ∈ query_keywords, kw.data ≠ [])
    (acc : List (ℕ × ℚ) × List SqrtVal) (i : ℕ) :
    kwStepE query_keywords verses acc i = .ok (kwStep query_keywords verses acc i) := by
  unfold kwStepE kwStep
  dsimp only
  rw [rawKeywordScoreE_ok _ _ hkw]
  dsimp only [Bind.bind, Except.bind]
  by_cases h : 0 < rawKeywordScore query_keywords
      (pyLower ((verses.getD i default).text.data))
  · rw [if_pos h, if_pos h]
    rfl
  · rw [if_neg h, if_neg h]
    rfl

theorem kwVersesE_ok (query_keywords : List String) (verses : List Verse)
    (scores : List SqrtVal) (hkw : ∀ kw ∈ query_keywords, kw.data ≠ []) :
    kwVersesE query_keywords verses scores
      = .ok (kwVerses query_keywords verses scores) := by
  unfold kwVersesE kwVerses
  suffices h : ∀ (l : List ℕ) (acc : List (ℕ × ℚ) × List SqrtVal),
      l.foldlM (kwStepE query_keywords verses) acc
        = .ok (l.foldl (kwStep query_keywords verses) acc) by
    exact h _ _
  intro l
  induction l with
  | nil => intro acc; rfl
  | cons i rest ih =>
    intro acc
    rw [List.foldlM_cons, kwStepE_ok query_keywords verses hkw, List.foldl_cons]
    exact ih _

theorem keywordSearchE_isOk (st : BState) (query_text : String) (top_k : ℕ) :
    (keywordSearchE st query_text top_k).isOk := by
  unfold keywordSearchE
  dsimp only
  by_cases h : (extract_keywords query_text 2).isEmpty = true
  · rw [if_pos h]
    rfl
  · rw [if_neg h]
    rw [kwVersesE_ok _ _ _ (fun kw hk => extract_keywords_ne_nil hk)]
    rfl

/-- The computation `keywordSearch` actually performs (its `except` branch
is dead because the body never fails). -/
theorem keywordSearch_spec (st : BState) (query_text : String) (top_k : ℕ) :
    keywordSearch st query_text top_k
      = if (extract_keywords query_text 2).isEmpty then ([], st)
        else
          (((sortByB candLe
              (kwVerses (extract_keywords query_text 2) st.verses st.scores).1).take
                top_k).map Prod.fst,
            { st with
              scores := (kwVerses (extract_keywords query_text 2) st.verses st.scores).2 }) := by
  unfold keywordSearch keywordSearchE
  dsimp only
  by_cases h : (extract_keywords query_text 2).isEmpty = true
  · rw [if_pos h, if_pos h]
    rfl
  · rw [if_neg h, if_neg h]
    rw [kwVersesE_ok _ _ _ (fun kw hk => extract_keywords_ne_nil hk)]
    rfl

/-- The raw lexical score `_keyword_search` computes for the verse at
position `i`. -/
abbrev kwRawScore (qk : List String) (verses : List Verse) (i : ℕ) : ℚ :=
  rawKeywordScore qk (pyLower (verses.getD i default).text.data)

theorem kwStep_pos (qk : List String) (verses : List Verse)
    (acc : List (ℕ × ℚ)) (sc : List SqrtVal) (i : ℕ)
    (h : 0 < kwRawScore qk verses i) :
    kwStep qk verses (acc, sc) i
      = (acc ++ [(i, min (kwRawScore qk verses i) 1)],
         sc.set i (SqrtVal.ofRat (min (kwRawScore qk verses i) 1))) := by
  unfold kwStep
  dsimp only
  rw [if_pos h]

theorem kwStep_nonpos (qk : List String) (verses : List Verse)
    (acc : List (ℕ × ℚ)) (sc : List SqrtVal) (i : ℕ)
    (h : ¬ 0 < kwRawScore qk verses i) :
    kwStep qk verses (acc, sc) i = (acc, sc) := by
  unfold kwStep
  dsimp only
  rw [if_neg h]

theorem kwFold_len (qk : List String) (verses : List Verse) :
    ∀ (L : List ℕ) (acc : List (ℕ × ℚ)) (sc : List SqrtVal),
      (L.foldl (kwStep qk verses) (acc, sc)).2.length = sc.length
  | [], _, _ => rfl
  | i :: rest, acc, sc => by
    rw [List.foldl_cons]
    by_cases h : 0 < kwRawScore qk verses i
    · rw [kwStep_pos qk verses acc sc i h, kwFold_len qk verses rest, List.length_set]
    · rw [kwStep_nonpos qk verses acc sc i h, kwFold_len qk verses rest]

theorem kwFold_mem (qk : List String) (verses : List Verse) :
    ∀ (L : List ℕ) (acc : List (ℕ × ℚ)) (sc : List SqrtVal),
      ∀ p ∈ (L.foldl (kwStep qk verses) (acc, sc)).1,
        p ∈ acc ∨ (p.1 ∈ L ∧ 0 < kwRawScore qk verses p.1 ∧
          p.2 = min (kwRawScore qk verses p.1) 1)
  | [], _, _, p, hp => Or.inl hp
  | i :: rest, acc, sc, p, hp => by
    rw [List.foldl_cons] at hp
    by_cases h : 0 < kwRawScore qk verses i
    · rw [kwStep_pos qk verses acc sc i h] at hp
      rcases kwFold_mem qk verses rest _ _ p hp with hacc | hnew
      · rcases List.mem_append.mp hacc with hacc | hone
        · exact Or.inl hacc
        · rcases List.mem_singleton.mp hone with rfl
          exact Or.inr ⟨List.mem_cons_self i rest, h, rfl⟩
      · exact Or.inr ⟨List.mem_cons_of_mem i hnew.1, hnew.2.1, hnew.2.2⟩
    · rw [kwStep_nonpos qk verses acc sc i h] at hp
      rcases kwFold_mem qk verses rest _ _ p hp with hacc | hnew
      · exact Or.inl hacc
      · exact Or.inr ⟨List.mem_cons_of_mem i hnew.1, hnew.2.1, hnew.2.2⟩

theorem kwFold_fst_sublist (qk : List String) (verses : List Verse) :
    ∀ (L : List ℕ) (acc : List (ℕ × ℚ)) (sc : List SqrtVal),
      List.Sublist ((L.foldl (kwStep qk verses) (acc, sc)).1.map Prod.fst)
        ((acc.map Prod.fst) ++ L)
  | [], acc, _ => by simp
  | i :: rest, acc, sc => by
    rw [List.foldl_cons]
    by_cases h : 0 < kwRawScore qk verses i
    · rw [kwStep_pos qk verses acc sc i h]
      have ih := kwFold_fst_sublist qk verses rest
        (acc ++ [(i, min (kwRawScore qk verses i) 1)])
        (sc.set i (SqrtVal.ofRat (min (kwRawScore qk verses i) 1)))
      rw [List.map_append] at ih
      simpa [List.append_assoc] using ih
    · rw [kwStep_nonpos qk verses acc sc i h]
      exact (kwFold_fst_sublist qk verses rest acc sc).trans
        ((List.sublist_cons_self i rest).append_left _)

theorem kwFold_untouched (qk : List String) (verses : List Verse) :
    ∀ (L : List ℕ) (acc : List (ℕ × ℚ)) (sc : List SqrtVal) (j : ℕ), j ∉ L →
      (L.foldl (kwStep qk verses) (acc, sc)).2.getD j default = sc.getD j default
  | [], _, _, _, _ => rfl
  | i :: rest, acc, sc, j, hj => by
    have hji : j ≠ i := fun h => hj (h ▸ List.mem_cons_self i rest)
    have hjr : j ∉ rest := fun h => hj (List.mem_cons_of_mem i h)
    rw [List.foldl_cons]
    by_cases h : 0 < kwRawScore qk verses i
    · rw [kwStep_pos qk verses acc sc i h,
        kwFold_untouched qk verses rest _ _ j hjr]
      unfold List.getD
      rw [List.get?_set_ne _ _ (Ne.symm hji)]
    · rw [kwStep_nonpos qk verses acc sc i h,
        kwFold_untouched qk verses rest _ _ j hjr]

theorem kwFold_written (qk : List String) (verses : List Verse) :
    ∀ (L : List ℕ) (acc : List (ℕ × ℚ)) (sc : List SqrtVal), L.Nodup →
      ∀ j ∈ L, 0 < kwRawScore qk verses j → j < sc.length →
        (L.foldl (kwStep qk verses) (acc, sc)).2.getD j default
          = SqrtVal.ofRat (min (kwRawScore qk verses j) 1)
  | [], _, _, _, j, hj, _, _ => absurd hj (by simp)
  | i :: rest, acc, sc, hnd, j, hj, hpos, hlt => by
    rcases List.nodup_cons.mp hnd with ⟨hni, hndr⟩
    rw [List.foldl_cons]
    rcases List.mem_cons.mp hj with rfl | hjr
    · rw [kwStep_pos qk verses acc sc j hpos,
        kwFold_untouched qk verses rest _ _ j hni]
      unfold List.getD
      rw [List.get?_set_eq_of_lt _ hlt]
      rfl
    · by_cases h : 0 < kwRawScore qk verses i
      · rw [kwStep_pos qk verses acc sc i h]
        exact kwFold_written qk verses rest _ _ hndr j hjr hpos
          (by rw [List.length_set]; exact hlt)
      · rw [kwStep_nonpos qk verses acc sc i h]
        exact kwFold_written qk verses rest _ _ hndr j hjr hpos hlt

theorem keywordSearch_result_spec (st : BState) (q : String) (topK : ℕ) :
    (∀ i ∈ (keywordSearch st q topK).1,
      i < st.verses.length ∧ 0 < kwRawScore (extract_keywords q 2) st.verses i) ∧
    (keywordSearch st q topK).1.Nodup ∧
    (keywordSearch st q topK).2.verses = st.verses ∧
    (keywordSearch st q topK).2.matrix = st.matrix ∧
    (keywordSearch st q topK).2.is_loaded = st.is_loaded ∧
    (keywordSearch st q topK).2.scores.length = st.scores.length ∧
    (st.verses.length ≤ st.scores.length →
      ∀ j, j < st.verses.length → 0 < kwRawScore (extract_keywords q 2) st.verses j →
        (keywordSearch st q topK).2.scores.getD j default
          = SqrtVal.ofRat (min (kwRawScore (extract_keywords q 2) st.verses j) 1)) := by
  rw [keywordSearch_spec]
  by_cases h : (extract_keywords q 2).isEmpty = true
  · rw [if_pos h]
    have hkw : extract_keywords q 2 = [] := List.isEmpty_iff.mp h
    refine ⟨by simp, by simp, rfl, rfl, rfl, rfl, ?_⟩
    intro _ j _ hpos
    rw [hkw] at hpos
    exact absurd hpos (by norm_num [kwRawScore, rawKeywordScore])
  · rw [if_neg h]
    have hmem2 : ∀ p ∈ (kwVerses (extract_keywords q 2) st.verses st.scores).1,
        p.1 ∈ List.range st.verses.length ∧
          0 < kwRawScore (extract_keywords q 2) st.verses p.1 ∧
          p.2 = min (kwRawScore (extract_keywords q 2) st.verses p.1) 1 := by
      intro p hp
      rcases kwFold_mem (extract_keywords q 2) st.verses
        (List.range st.verses.length) [] st.scores p hp with hacc | hgood
      · exact absurd hacc (by simp)
      · exact hgood
    refine ⟨?_, ?_, rfl, rfl, rfl, ?_, ?_⟩
    · intro i hi
      rcases List.mem_map.mp hi with ⟨p, hp, rfl⟩
      have hp2 := (perm_sortByB candLe _).subset (List.mem_of_mem_take hp)
      obtain ⟨hr, hpos, _⟩ := hmem2 p hp2
      exact ⟨List.mem_range.mp hr, hpos⟩
    · rw [List.map_take]
      have hfst : ((kwVerses (extract_keywords q 2) st.verses st.scores).1.map
          Prod.fst).Nodup := by
        have hsub := kwFold_fst_sublist (extract_keywords q 2) st.verses
          (List.range st.verses.length) [] st.scores
        simp only [List.map_nil, List.nil_append] at hsub
        exact hsub.nodup (List.nodup_range _)
      have hperm := ((perm_sortByB candLe
        (kwVerses (extract_keywords q 2) st.verses st.scores).1).map Prod.fst)
      exact (List.take_sublist _ _).nodup (hperm.nodup_iff.mpr hfst)
    · exact kwFold_len _ _ _ _ _
    · intro hlen j hj hpos
      exact kwFold_written (extract_keywords q 2) st.verses _ [] st.scores
        (List.nodup_range _) j (List.mem_range.mpr hj) hpos (lt_of_lt_of_le hj hlen)

theorem foldl_add_eq_sum (f : String → ℚ) :
    ∀ (l : List String) (init : ℚ),
      l.foldl (fun s kw => s + f kw) init = init + (l.map f).sum
  | [], init => by simp
  | kw :: rest, init => by
    rw [List.foldl_cons, foldl_add_eq_sum f rest, List.map_cons, List.sum_cons]
    ring

theorem rawKeywordScore_eq_sum (qk : List String) (vtext : List Char) :
    rawKeywordScore qk vtext
      = (qk.map (fun kw => keywordTermScore (pyLower kw.data) vtext)).sum := by
  unfold rawKeywordScore
  rw [foldl_add_eq_sum]
  simp

theorem rawScore_pos_exists (qk : List String) (vtext : List Char)
    (h : 0 < rawKeywordScore qk vtext) :
    ∃ kw ∈ qk, isSubstr (pyLower kw.data) vtext = true := by
  by_contra hc
  push_neg at hc
  have h0 : rawKeywordScore qk vtext = 0 := by
    rw [rawKeywordScore_eq_sum]
    apply List.sum_eq_zero
    intro x hx
    rcases List.mem_map.mp hx with ⟨kw, hkw, rfl⟩
    unfold keywordTermScore
    rw [if_neg (hc kw hkw)]
  rw [h0] at h
  exact absurd h (lt_irrefl 0)

/-- C9: every entry returned by the lexical matcher contains, case-
insensitively, at least one extracted query keyword; the score written on
it is `min(raw, 1.0)` where `raw` is the claimed per-keyword sum (last
conjunct); and entries with raw score 0 are never returned. -/
theorem claim_C9_lexical_scoring (st : BState) (q : String) (topK : ℕ)
    (hlen : st.verses.length ≤ st.scores.length) :
    (∀ i ∈ (keywordSearch st q topK).1,
      (∃ kw ∈ extract_keywords q 2,
        isSubstr (pyLower kw.data)
          (pyLower ((st.verses.getD i default).text.data)) = true) ∧
      (keywordSearch st q topK).2.scores.getD i default
        = SqrtVal.ofRat (min (kwRawScore (extract_keywords q 2) st.verses i) 1)) ∧
    (∀ i, kwRawScore (extract_keywords q 2) st.verses i = 0 →
      i ∉ (keywordSearch st q topK).1) ∧
    (∀ i, kwRawScore (extract_keywords q 2) st.verses i
      = ((extract_keywords q 2).map
          (fun kw => keywordTermScore (pyLower kw.data)
            (pyLower ((st.verses.getD i default).text.data)))).sum) := by
  obtain ⟨hmem, _, _, _, _, _, hwritten⟩ := keywordSearch_result_spec st q topK
  refine ⟨?_, ?_, ?_⟩
  · intro i hi
    obtain ⟨hin, hpos⟩ := hmem i hi
    exact ⟨rawScore_pos_exists _ _ hpos, hwritten hlen i hin hpos⟩
  · intro i h0 hi
    obtain ⟨_, hpos⟩ := hmem i hi
    rw [h0] at hpos
    exact absurd hpos (lt_irrefl 0)
  · intro i
    exact rawKeywordScore_eq_sum _ _

/-- Witness for claim C9: the scoring properties at a concrete corpus. -/
def stOverwrite : BState :=
  { verses := [⟨"v0", "사랑", "시편", 1, 1, [1, 0]⟩,
               ⟨"v1", "소망", "시편", 1, 2, [-3, -4]⟩],
    scores := [SqrtVal.ofRat 0, SqrtVal.ofRat 0], matrix := some [[1, 0], [-3, -4]],
    is_loaded := true }

theorem claim_C9_witness :
    (∃ kw ∈ extract_keywords "사랑 소망" 2,
      isSubstr (pyLower kw.data)
        (pyLower ((stOverwrite.verses.getD 0 default).text.data)) = true) ∧
    (keywordSearch stOverwrite "사랑 소망" 5).2.scores.getD 0 default
      = SqrtVal.ofRat
          (min (kwRawScore (extract_keywords "사랑 소망" 2) stOverwrite.verses 0) 1) :=
  (claim_C9_lexical_scoring stOverwrite "사랑 소망" 5 (by decide)).1 0 (by decide)

/-- C10: one coordinator search call writes the clamped lexical score onto
*every* entry with a positive lexical score — returned or not — and when
the lexical path runs after the vector path it overwrites the cosine score
of an entry the vector path already selected, so a vector-sourced result's
final score can differ from its cosine similarity.  The concrete part:
entry 0 is selected by the vector path with cosine 3/√25 = 0.6, then
re-scored to 1.0 by the lexical path; and with `top_k = 1` entry 1 gets
its score written although it is not part of the returned result. -/
theorem claim_C10_lexical_overwrite :
    (∀ (st : BState) (q : String) (topK j : ℕ),
      st.verses.length ≤ st.scores.length →
      j < st.verses.length →
      0 < kwRawScore (extract_keywords q 2) st.verses j →
      (keywordSearch st q topK).2.scores.getD j default
        = SqrtVal.ofRat (min (kwRawScore (extract_keywords q 2) st.verses j) 1)) ∧
    ((searchVerses {} stOverwrite "사랑 소망" (some [3, 4]) none).1 = [0, 1] ∧
      (searchVerses {} stOverwrite "사랑 소망" (some [3, 4]) none).2.scores.getD 0 default
        = SqrtVal.ofRat 1 ∧
      cosineSimVal [3, 4] ((stOverwrite.verses.getD 0 default).embedding) = ⟨3, 25⟩ ∧
      SqrtVal.eqv (SqrtVal.ofRat 1) ⟨3, 25⟩ = false) ∧
    ((searchVerses {} stOverwrite "사랑 소망" none (some 1)).1 = [0] ∧
      (searchVerses {} stOverwrite "사랑 소망" none (some 1)).2.scores.getD 1 default
        = SqrtVal.ofRat 1) := by
  refine ⟨?_, ⟨by decide, by decide, by decide, by decide⟩, ⟨by decide, by decide⟩⟩
  intro st q topK j hlen hj hpos
  obtain ⟨_, _, _, _, _, _, hwritten⟩ := keywordSearch_result_spec st q topK
  exact hwritten hlen j hj hpos

/-- Witness for claim C10: the universal write property applied at the
concrete corpus, entry 1. -/
theorem claim_C10_witness :
    (keywordSearch stOverwrite "사랑 소망" 1).2.scores.getD 1 default
      = SqrtVal.ofRat
          (min (kwRawScore (extract_keywords "사랑 소망" 2) stOverwrite.verses 1) 1) :=
  claim_C10_lexical_overwrite.1 stOverwrite "사랑 소망" 1 1 (by decide) (by decide)
    (by decide)

theorem verse_id_inj {verses : List Verse} (hids : (verses.map Verse.id).Nodup)
    {i j : ℕ} (hi : i < verses.length) (hj : j < verses.length)
    (h : (verses.getD i default).id = (verses.getD j default).id) : i = j := by
  have hi2 : i < (verses.map Verse.id).length := by rw [List.length_map]; exact hi
  have hj2 : j < (verses.map Verse.id).length := by rw [List.length_map]; exact hj
  apply (@List.Nodup.getElem_inj_iff _ _ hids i hi2 j hj2).mp
  rw [List.getElem_map, List.getElem_map]
  rw [List.getD_eq_getElem _ _ hi, List.getD_eq_getElem _ _ hj] at h
  exact h

theorem idsNodup_of_indices {verses : List Verse} (hids : (verses.map Verse.id).Nodup)
    {l : List ℕ} (hn : l.Nodup) (hin : ∀ i ∈ l, i < verses.length) :
    (l.map (fun i => (verses.getD i default).id)).Nodup := by
  apply List.Nodup.map_on ?_ hn
  intro x hx y hy hxy
  exact verse_id_inj hids (hin x hx) (hin y hy) hxy

theorem mergeLoop_spec (verses : List Verse) (topK : ℕ) (existing : List String)
    (hids : (verses.map Verse.id).Nodup) :
    ∀ (rest acc : List ℕ),
      (acc.map fun i => (verses.getD i default).id).Nodup →
      (∀ i ∈ rest, ∀ j ∈ acc,
        (verses.getD j default).id = (verses.getD i default).id →
          (verses.getD i default).id ∈ existing) →
      rest.Nodup →
      (∀ i ∈ rest, i < verses.length) → (∀ j ∈ acc, j < verses.length) →
      ((mergeLoop verses topK existing acc rest).map
        fun i => (verses.getD i default).id).Nodup ∧
      (∀ i ∈ mergeLoop verses topK existing acc rest, i < verses.length)
  | [], acc, hacc, _, _, _, haccin => ⟨hacc, haccin⟩
  | i :: rest, acc, hacc, hdisj, hnd, hrestin, haccin => by
    rcases List.nodup_cons.mp hnd with ⟨hirest, hndr⟩
    unfold mergeLoop
    by_cases hc : (verses.getD i default).id ∉ existing ∧ acc.length < topK
    · rw [if_pos hc]
      have hi : i < verses.length := hrestin i (List.mem_cons_self i rest)
      have haccnew : ((acc ++ [i]).map fun k => (verses.getD k default).id).Nodup := by
        rw [List.map_append]
        apply List.Nodup.append hacc (by simp)
        intro a ha hb
        rcases List.mem_map.mp ha with ⟨j, hj, hjeq⟩
        rcases List.mem_map.mp hb with ⟨k, hk, hkeq⟩
        rcases List.mem_singleton.mp hk with rfl
        exact hc.1 (hdisj k (List.mem_cons_self k rest) j hj (hjeq.trans hkeq.symm))
      refine mergeLoop_spec verses topK existing hids rest (acc ++ [i]) haccnew ?_ hndr
        (fun k hk => hrestin k (List.mem_cons_of_mem i hk)) ?_
      · intro a ha j hj heq
        rcases List.mem_append.mp hj with hj | hj
        · exact hdisj a (List.mem_cons_of_mem i ha) j hj heq
        · have hji : j = i := List.mem_singleton.mp hj
          have hal : a < verses.length := hrestin a (List.mem_cons_of_mem i ha)
          have hia : i = a := verse_id_inj hids hi hal (hji ▸ heq)
          exact absurd (show i ∈ rest from hia ▸ ha) hirest
      · intro j hj
        rcases List.mem_append.mp hj with hj | hj
        · exact haccin j hj
        · rcases List.mem_singleton.mp hj with rfl
          exact hi
    · rw [if_neg hc]
      exact mergeLoop_spec verses topK existing hids rest acc hacc
        (fun a ha j hj => hdisj a (List.mem_cons_of_mem i ha) j hj) hndr
        (fun k hk => hrestin k (List.mem_cons_of_mem i hk)) haccin

theorem embeddingSearch_state (cfg : Cfg) (st : BState) (q : List ℚ) (topK : ℕ) :
    (embeddingSearch cfg st q topK).2.verses = st.verses ∧
    (embeddingSearch cfg st q topK).2.matrix = st.matrix ∧
    (embeddingSearch cfg st q topK).2.is_loaded = st.is_loaded ∧
    (embeddingSearch cfg st q topK).2.scores.length = st.scores.length := by
  obtain ⟨vs, sc, m, ld⟩ := st
  cases m with
  | none =>
    unfold embeddingSearch
    by_cases hsk : (!cfg.sklearnAvailable) = true
    · rw [if_pos hsk]
      exact ⟨rfl, rfl, rfl, rfl⟩
    · rw [if_neg hsk]
      exact ⟨rfl, rfl, rfl, rfl⟩
  | some rows =>
    unfold embeddingSearch
    by_cases hsk : (!cfg.sklearnAvailable) = true
    · rw [if_pos hsk]
      exact ⟨rfl, rfl, rfl, rfl⟩
    · rw [if_neg hsk]
      dsimp only
      unfold cosineSimilarityE
      by_cases hdim : (rows.all fun r => decide (r.length = q.length)) = true
      · rw [if_pos hdim]
        dsimp only
        rcases hrec : embedLoop vs.length sc (rows.map (cosineSimVal q))
            cfg.SIMILARITY_THRESHOLD
            (((argsort (rows.map (cosineSimVal q))).reverse).take (2 * topK)) with
          ⟨res0, sc2, ab⟩
        have hlen : sc2.length = sc.length := by
          have := embedLoop_scores_len vs.length (rows.map (cosineSimVal q))
            cfg.SIMILARITY_THRESHOLD
            (((argsort (rows.map (cosineSimVal q))).reverse).take (2 * topK)) sc
          rw [hrec] at this
          exact this
        cases ab
        · exact ⟨rfl, rfl, rfl, hlen⟩
        · exact ⟨rfl, rfl, rfl, hlen⟩
      · rw [if_neg hdim]
        exact ⟨rfl, rfl, rfl, rfl⟩

theorem vectorStep_facts (cfg : Cfg) (st : BState) (qe : Option (List ℚ)) (tk : ℕ) :
    (vectorStep cfg st qe tk).1.Nodup ∧
    (∀ i ∈ (vectorStep cfg st qe tk).1, i < st.verses.length) ∧
    (vectorStep cfg st qe tk).2.verses = st.verses ∧
    (vectorStep cfg st qe tk).2.scores.length = st.scores.length := by
  unfold vectorStep
  rcases qe with _ | q
  · exact ⟨List.nodup_nil, by simp, rfl, rfl⟩
  · rcases hm : st.matrix with _ | rows
    · exact ⟨List.nodup_nil, by simp, rfl, rfl⟩
    · dsimp only
      by_cases hq : q.isEmpty = true
      · rw [if_pos hq]
        exact ⟨List.nodup_nil, by simp, rfl, rfl⟩
      · rw [if_neg hq]
        obtain ⟨_, hnodup, hmem, _, _⟩ := embeddingSearch_spec cfg st q tk rows hm
        obtain ⟨hv, _, _, hsc⟩ := embeddingSearch_state cfg st q tk
        exact ⟨hnodup, fun i hi => (hmem i hi).2.1, hv, hsc⟩

/-- C6: the coordinator's search never returns two entries with the same
id (given the data-model invariant that corpus entry ids are unique). -/
theorem claim_C6_no_duplicate_ids (cfg : Cfg) (st : BState) (query_text : String)
    (query_embedding : Option (List ℚ)) (top_k : Option ℕ)
    (hids : (st.verses.map Verse.id).Nodup) :
    ((searchVerses cfg st query_text query_embedding top_k).1.map
      (fun i => (st.verses.getD i default).id)).Nodup := by
  unfold searchVerses
  by_cases hld : (!st.is_loaded) = true
  · rw [if_pos hld]
    simp
  · rw [if_neg hld]
    dsimp only
    obtain ⟨hembnd, hembmem, hembv, hembsc⟩ :=
      vectorStep_facts cfg st query_embedding (top_k.getD cfg.MAX_BIBLE_RESULTS)
    have hmerged :
        ∀ merged : List ℕ × BState,
          (merged.1.map (fun i => (st.verses.getD i default).id)).Nodup →
          (((merged.1.filter (fun i => (SqrtVal.ofRat cfg.SIMILARITY_THRESHOLD).le
              (merged.2.scores.getD i default))).take (top_k.getD cfg.MAX_BIBLE_RESULTS)).map
            (fun i => (st.verses.getD i default).id)).Nodup := by
      intro merged hnd
      have hsub : List.Sublist
          ((merged.1.filter (fun i => (SqrtVal.ofRat cfg.SIMILARITY_THRESHOLD).le
            (merged.2.scores.getD i default))).take (top_k.getD cfg.MAX_BIBLE_RESULTS))
          merged.1 :=
        (List.take_sublist _ _).trans (List.filter_sublist _)
      exact (hsub.map _).nodup hnd
    by_cases hfull : ((vectorStep cfg st query_embedding
        (top_k.getD cfg.MAX_BIBLE_RESULTS)).1.isEmpty
      || decide ((vectorStep cfg st query_embedding (top_k.getD cfg.MAX_BIBLE_RESULTS)).1.length
          < top_k.getD cfg.MAX_BIBLE_RESULTS)) = true
    · rw [if_pos hfull]
      apply hmerged
      dsimp only
      -- the merged list comes from mergeLoop over the keyword results
      obtain ⟨hkwmem, hkwnd, hkwv, _, _, _, _⟩ :=
        keywordSearch_result_spec
          (vectorStep cfg st query_embedding (top_k.getD cfg.MAX_BIBLE_RESULTS)).2
          query_text (top_k.getD cfg.MAX_BIBLE_RESULTS)
      have hkwv2 : (keywordSearch (vectorStep cfg st query_embedding
          (top_k.getD cfg.MAX_BIBLE_RESULTS)).2 query_text
            (top_k.getD cfg.MAX_BIBLE_RESULTS)).2.verses = st.verses := by
        rw [hkwv, hembv]
      rw [hkwv2]
      have hml := mergeLoop_spec st.verses (top_k.getD cfg.MAX_BIBLE_RESULTS)
        ((vectorStep cfg st query_embedding (top_k.getD cfg.MAX_BIBLE_RESULTS)).1.map
          (fun i => ((vectorStep cfg st query_embedding
            (top_k.getD cfg.MAX_BIBLE_RESULTS)).2.verses.getD i default).id))
        hids
        (keywordSearch (vectorStep cfg st query_embedding
          (top_k.getD cfg.MAX_BIBLE_RESULTS)).2 query_text
            (top_k.getD cfg.MAX_BIBLE_RESULTS)).1
        (vectorStep cfg st query_embedding (top_k.getD cfg.MAX_BIBLE_RESULTS)).1
        (idsNodup_of_indices hids hembnd hembmem)
        ?_ ?_ ?_ hembmem
      · exact hml.1
      · intro i hi j hj heq
        rw [hembv]
        apply List.mem_map.mpr
        exact ⟨j, hj, heq⟩
      · exact hkwnd
      · intro i hi
        have := (hkwmem i hi).1
        rwa [hembv] at this
    · rw [if_neg hfull]
      apply hmerged
      exact idsNodup_of_indices hids hembnd hembmem

/-- Witness for claim C6: no duplicate ids at a concrete two-verse corpus
search that merges vector and lexical results. -/
theorem claim_C6_witness :
    ((searchVerses {} stOverwrite "사랑 소망" (some [3, 4]) none).1.map
      (fun i => (stOverwrite.verses.getD i default).id)).Nodup :=
  claim_C6_no_duplicate_ids {} stOverwrite "사랑 소망" (some [3, 4]) none (by decide)

theorem getStatsE_isOk (cfg : Cfg) (st : BState) (memory_delta : ℚ)
    (hm : st.matrix ≠ some []) : (getStatsE cfg st memory_delta).isOk := by
  unfold getStatsE
  by_cases hl : (!st.is_loaded) = true
  · rw [if_pos hl]
    rfl
  · rw [if_neg hl]
    dsimp only
    rcases Option.eq_none_or_eq_some st.matrix with h0 | ⟨rows, h0⟩
    · rw [h0]
      rfl
    · rcases rows with _ | ⟨r, rest⟩
      · exact absurd h0 hm
      · rw [h0]
        rfl

/-- C7: the public operations raise no exception.  `classify` and the
lexical matcher have guarded divisions and otherwise total operations, so
their bodies never fail; `get_stats` cannot fail on any state whose
matrix is well-formed (every state the store can build — the matrix is
only ever published with at least one row); and the vector matcher
converts any internal `cosine_similarity` failure into an empty result
rather than propagating it, so `search_verses` always returns a value. -/
theorem claim_C7_no_exceptions :
    (∀ text : String, (classifyE text).isOk) ∧
    (∀ (st : BState) (q : String) (tk : ℕ), (keywordSearchE st q tk).isOk) ∧
    (∀ (cfg : Cfg) (st : BState) (m : ℚ), st.matrix ≠ some [] →
      (getStatsE cfg st m).isOk) ∧
    (∀ (cfg : Cfg) (st : BState) (q : List ℚ) (topK : ℕ) (rows : List (List ℚ))
      (e : PyError), st.matrix = some rows → cosineSimilarityE q rows = .error e →
      embeddingSearch cfg st q topK = ([], st)) := by
  refine ⟨classifyE_isOk, keywordSearchE_isOk, getStatsE_isOk, ?_⟩
  intro cfg st q topK rows e hmat hcos
  unfold embeddingSearch
  by_cases hsk : (!cfg.sklearnAvailable) = true
  · rw [if_pos hsk]
  · rw [if_neg hsk, hmat]
    dsimp only
    rw [hcos]

/-- Witness for claim C7: concrete instantiations of the no-exception
properties, the stats one with its well-formed-matrix hypothesis
discharged at a loaded corpus. -/
theorem claim_C7_witness :
    (getStatsE {} stAll 0).isOk ∧ (classifyE "가족 때문에 너무 힘들어요").isOk ∧
      (keywordSearchE stAll "사랑" 5).isOk :=
  ⟨claim_C7_no_exceptions.2.2.1 {} stAll 0 (by decide),
   claim_C7_no_exceptions.1 _,
   claim_C7_no_exceptions.2.1 stAll "사랑" 5⟩
